import Mathlib

/-!
Verification development for the log-structured key-value store in
`src/with_server/src/engines/kvs.rs` (engine `KVStore`), together with the
segment-directory listing function `sort_file_by_number` (also present in
`src/on_disk/on-disk/src/kv.rs`).

Modelling conventions:
* Machine integers (`u64`) are modelled as `Nat`; none of the verified
  operations can overflow a `u64` in the modelled scenarios, and the source
  performs no wrapping arithmetic on them.
* File bytes are modelled as `List Char` (the log is serde_json text).
* The serde_json record codec is an external library dependency (not part of
  this repository); it is modelled by a concrete executable self-delimiting
  codec satisfying the contract of spec section 4.3: `encode` appends a
  self-delimiting encoding of a record, `decodeOne` decodes exactly one
  record from the front of a byte stream and returns the rest, decoding of
  malformed bytes fails, and a record followed by anything decodes to that
  record (prefix property).  Record lengths in the model are lengths of this
  modelled encoding.
* The `readers` map of the source (segment id to buffered reader handle)
  also serves as the model of the on-disk directory contents: in the source
  the set of reader ids and the set of on-disk segment files coincide at all
  times (`open` registers a reader for every listed file plus the fresh
  active file, `new_file` creates a file and registers its reader together,
  and `compact` removes each reader together with deleting its file).
  A reader carries the file bytes (`data`) and its cursor (`pos`).
* Reader cursor positions are tracked faithfully, but every read in the
  source seeks before reading, so positions never influence results.
* The `BufWriter` of the active segment is flushed by `set`/`remove` before
  any subsequent read can happen, and the active segment file is always
  newly created when its writer is opened, so the tracked writer position
  equals the active file length; the model derives it from the file bytes.
-/

namespace KV

/-- Record type of the log, from `enum Command` in `kvs.rs`:
`Set(String, String)` and `Remove(String)`. -/
inductive Command where
  | Set : String → String → Command
  | Remove : String → Command
deriving DecidableEq

/-- Error type modelled from `KVStoreError` in `src/with_server/src/error.rs`.
Error payloads (io error values, message strings) are dropped; only the
variant is retained. -/
inductive KVStoreError where
  | Io : KVStoreError
  | Serde : KVStoreError
  | Sled : KVStoreError
  | Utf8 : KVStoreError
  | KeyNotFound : KVStoreError
  | UnexpectedCommandType : KVStoreError
  | Other : KVStoreError
deriving DecidableEq

/-- Index entry, from `struct CommandMedaData` in `kvs.rs`:
segment number, byte offset of the record, byte length of the record. -/
structure CommandMedaData where
  file_number : Nat
  offset : Nat
  length : Nat
deriving DecidableEq

/-! ## Record codec

Modelled from the spec (section 4.3 Record Codec): the serde_json
serialization of `Command` is an external dependency, modelled here by a
concrete self-delimiting executable codec.  A string is encoded as its
length in unary (`'1'` repeated, terminated by `'0'`) followed by its
characters; a record is a tag character followed by its field strings. -/

/-- Unary length encoding used by the modelled codec. -/
def encNat (n : Nat) : List Char := List.replicate n '1' ++ ['0']

/-- Self-delimiting string encoding of the modelled codec. -/
def encStr (s : String) : List Char := encNat s.length ++ s.data

/-- Self-delimiting record encoding of the modelled codec
(models serde_json serialization of `Command`). -/
def encode : Command → List Char
  | .Set k v => 'S' :: (encStr k ++ encStr v)
  | .Remove k => 'R' :: encStr k

/-- Decoder for the unary length encoding. -/
def decodeNat : List Char → Option (Nat × List Char)
  | [] => none
  | c :: rest =>
    if c = '0' then some (0, rest)
    else if c = '1' then (decodeNat rest).map (fun p => (p.1 + 1, p.2))
    else none

/-- Decoder for the modelled string encoding. -/
def decodeStr (bs : List Char) : Option (String × List Char) :=
  (decodeNat bs).bind (fun p =>
    if p.1 ≤ p.2.length then some (⟨p.2.take p.1⟩, p.2.drop p.1) else none)

/-- Streaming decoder of the modelled codec: decodes exactly one record from
the front of the stream and returns the remaining bytes (models one step of
serde_json `StreamDeserializer`). -/
def decodeOne : List Char → Option (Command × List Char)
  | [] => none
  | c :: rest =>
    if c = 'S' then
      (decodeStr rest).bind (fun p1 =>
        (decodeStr p1.2).map (fun p2 => (.Set p1.1 p2.1, p2.2)))
    else if c = 'R' then
      (decodeStr rest).map (fun p => (.Remove p.1, p.2))
    else none

/-- Whole-slice decoder (models `serde_json::from_reader` on a
`take`-limited reader, which fails when bytes remain after the value). -/
def decodeExact (bs : List Char) : Except Unit Command :=
  match decodeOne bs with
  | some (c, []) => .ok c
  | _ => .error ()

/-! ### Codec theory (needed below for the termination of `load`) -/

theorem decodeNat_enc (n : Nat) (t : List Char) :
    decodeNat (encNat n ++ t) = some (n, t) := by
  induction n with
  | zero => simp [encNat, decodeNat]
  | succ m ih =>
    have hsplit : encNat (m + 1) ++ t = '1' :: (encNat m ++ t) := by
      simp [encNat, List.replicate_succ]
    rw [hsplit]
    simp [decodeNat, ih]

theorem decodeStr_enc (s : String) (t : List Char) :
    decodeStr (encStr s ++ t) = some (s, t) := by
  have hlen : s.data.length = s.length := rfl
  rw [encStr, List.append_assoc, decodeStr, decodeNat_enc, Option.some_bind]
  have hle : s.length ≤ (s.data ++ t).length := by
    rw [List.length_append, hlen]
    exact Nat.le_add_right _ _
  simp only []
  rw [if_pos hle]
  rw [List.take_left' hlen, List.drop_left' hlen]

theorem decodeOne_enc (c : Command) (t : List Char) :
    decodeOne (encode c ++ t) = some (c, t) := by
  cases c with
  | Set k v =>
    have hsplit : encode (.Set k v) ++ t = 'S' :: (encStr k ++ (encStr v ++ t)) := by
      simp [encode]
    rw [hsplit]
    simp [decodeOne, decodeStr_enc]
  | Remove k =>
    have hsplit : encode (.Remove k) ++ t = 'R' :: (encStr k ++ t) := by
      simp [encode]
    rw [hsplit]
    simp [decodeOne, decodeStr_enc]

theorem decodeNat_sound {bs : List Char} {n : Nat} {rest : List Char}
    (h : decodeNat bs = some (n, rest)) : bs = encNat n ++ rest := by
  induction bs generalizing n with
  | nil => simp [decodeNat] at h
  | cons c tl ih =>
    rw [decodeNat] at h
    by_cases h0 : c = '0'
    · rw [if_pos h0] at h
      simp only [Option.some.injEq, Prod.mk.injEq] at h
      obtain ⟨rfl, rfl⟩ := h
      simp [encNat, h0]
    · rw [if_neg h0] at h
      by_cases h1 : c = '1'
      · rw [if_pos h1] at h
        cases hd : decodeNat tl with
        | none => rw [hd] at h; simp at h
        | some p =>
          obtain ⟨m, r⟩ := p
          rw [hd] at h
          simp only [Option.map_some', Option.some.injEq, Prod.mk.injEq] at h
          obtain ⟨rfl, rfl⟩ := h
          rw [h1, ih hd]
          simp [encNat, List.replicate_succ]
      · rw [if_neg h1] at h
        simp at h

theorem decodeStr_sound {bs : List Char} {s : String} {rest : List Char}
    (h : decodeStr bs = some (s, rest)) : bs = encStr s ++ rest := by
  rw [decodeStr] at h
  cases hd : decodeNat bs with
  | none => rw [hd] at h; simp at h
  | some p =>
    obtain ⟨n, r⟩ := p
    rw [hd, Option.some_bind] at h
    simp only [] at h
    by_cases hle : n ≤ r.length
    · rw [if_pos hle] at h
      simp only [Option.some.injEq, Prod.mk.injEq] at h
      obtain ⟨hs, hr⟩ := h
      have hb := decodeNat_sound hd
      have hsl : s.length = n := by
        rw [← hs]
        show (r.take n).length = n
        simp [hle]
      have hdata : s.data = r.take n := by rw [← hs]
      rw [hb, ← hr, encStr, hsl, List.append_assoc, hdata,
        List.take_append_drop]
    · rw [if_neg hle] at h
      simp at h

theorem decodeOne_sound {bs : List Char} {c : Command} {rest : List Char}
    (h : decodeOne bs = some (c, rest)) : bs = encode c ++ rest := by
  cases bs with
  | nil => simp [decodeOne] at h
  | cons b tl =>
    rw [decodeOne] at h
    by_cases hS : b = 'S'
    · rw [if_pos hS] at h
      cases h1 : decodeStr tl with
      | none => rw [h1] at h; simp at h
      | some p1 =>
        obtain ⟨k, r1⟩ := p1
        rw [h1, Option.some_bind] at h
        cases h2 : decodeStr r1 with
        | none => rw [h2] at h; simp at h
        | some p2 =>
          obtain ⟨v, r2⟩ := p2
          rw [h2] at h
          simp only [Option.map_some', Option.some.injEq, Prod.mk.injEq] at h
          obtain ⟨rfl, rfl⟩ := h
          rw [hS, decodeStr_sound h1, decodeStr_sound h2]
          simp [encode]
    · rw [if_neg hS] at h
      by_cases hR : b = 'R'
      · rw [if_pos hR] at h
        cases h1 : decodeStr tl with
        | none => rw [h1] at h; simp at h
        | some p =>
          obtain ⟨k, r⟩ := p
          rw [h1] at h
          simp only [Option.map_some', Option.some.injEq, Prod.mk.injEq] at h
          obtain ⟨rfl, rfl⟩ := h
          rw [hR, decodeStr_sound h1]
          simp [encode]
      · rw [if_neg hR] at h
        simp at h

theorem encNat_length (n : Nat) : (encNat n).length = n + 1 := by
  simp [encNat]

theorem encode_pos (c : Command) : 0 < (encode c).length := by
  cases c <;> simp [encode]

theorem decodeOne_lt {bs : List Char} {c : Command} {rest : List Char}
    (h : decodeOne bs = some (c, rest)) : rest.length < bs.length := by
  rw [decodeOne_sound h, List.length_append]
  have := encode_pos c
  omega

theorem decodeOne_append {bs : List Char} {c : Command} {rest : List Char}
    (t : List Char) (h : decodeOne bs = some (c, rest)) :
    decodeOne (bs ++ t) = some (c, rest ++ t) := by
  rw [decodeOne_sound h, List.append_assoc, decodeOne_enc]

theorem decodeExact_enc (c : Command) : decodeExact (encode c) = .ok c := by
  unfold decodeExact
  rw [show encode c = encode c ++ [] by simp, decodeOne_enc]


/-! ## Ordered association lists

The in-memory index of the engine is a `BTreeMap<String, CommandMedaData>`;
it is modelled as an association list kept in ascending key order, so that
iteration order (used by `compact`) matches `BTreeMap::values_mut`.  The
readers cache is a `HashMap<u64, BufferReaderWithPosition<File>>`; it is
modelled as an association list whose representation order is the insertion
order (a `HashMap` is semantically just a finite map). -/

/-- The engine index: key to `CommandMedaData`, modelling the `BTreeMap`. -/
abbrev Index := List (String × CommandMedaData)

/-- Lexicographic comparison of character lists by codepoint, used to
model the `BTreeMap` key order.  Rust orders `String`s by their UTF-8
bytes, which coincides with codepoint-lexicographic order. -/
def strLtAux : List Char → List Char → Bool
  | [], [] => false
  | [], _ :: _ => true
  | _ :: _, [] => false
  | a :: as, b :: bs =>
    if a.toNat < b.toNat then true
    else if b.toNat < a.toNat then false
    else strLtAux as bs

/-- The `BTreeMap` key order on `String`. -/
def strLt (a b : String) : Bool := strLtAux a.data b.data

/-- Lookup in the index (`BTreeMap::get` / `contains_key`). -/
def idxGet : Index → String → Option CommandMedaData
  | [], _ => none
  | (k', v') :: rest, k => if k = k' then some v' else idxGet rest k

/-- Ordered insert in the index (`BTreeMap::insert`); keeps keys ascending
and replaces the value when the key is already present. -/
def idxInsert : Index → String → CommandMedaData → Index
  | [], k, v => [(k, v)]
  | (k', v') :: rest, k, v =>
    if strLt k k' then (k, v) :: (k', v') :: rest
    else if k = k' then (k, v) :: rest
    else (k', v') :: idxInsert rest k v

/-- Key removal in the index (`BTreeMap::remove`). -/
def idxRemove : Index → String → Index
  | [], _ => []
  | (k', v') :: rest, k => if k = k' then rest else (k', v') :: idxRemove rest k

/-! ## Readers map and engine state -/

/-- A buffered reader handle (`BufferReaderWithPosition<File>`): the bytes
of the segment file it reads from, and its tracked cursor position. -/
structure Rdr where
  data : List Char
  pos : Nat
deriving DecidableEq

/-- The readers cache (`HashMap<u64, BufferReaderWithPosition<File>>`).
As explained in the header, its key set always coincides with the set of
on-disk segment files, so it doubles as the model of the data directory. -/
abbrev Readers := List (Nat × Rdr)

/-- Directory contents as seen by `open`: segment number to file bytes. -/
abbrev Disk := List (Nat × List Char)

/-- Lookup in the readers map (`HashMap::get_mut`). -/
def rget : Readers → Nat → Option Rdr
  | [], _ => none
  | (n', r') :: rest, n => if n = n' then some r' else rget rest n

/-- Insert/replace in the readers map (`HashMap::insert`); an absent key is
appended at the end of the representation list. -/
def rset : Readers → Nat → Rdr → Readers
  | [], n, r => [(n, r)]
  | (n', r') :: rest, n, r =>
    if n = n' then (n, r) :: rest else (n', r') :: rset rest n r

/-- Lookup in a directory listing. -/
def dget : Disk → Nat → Option (List Char)
  | [], _ => none
  | (n', d) :: rest, n => if n = n' then some d else dget rest n

/-- Compaction threshold, from `const COMPACTION_THRESHOLD: u64 = 1024 * 1024`. -/
def COMPACTION_THRESHOLD : Nat := 1024 * 1024

/-- Engine state, from `struct KVStore` in `kvs.rs`.  The `db_path` field is
dropped (a single directory is modelled); the active writer is represented
by its target file (the entry of `readers` at `current_file_number`), whose
length is the tracked writer position, as justified in the header. -/
structure KVStore where
  current_file_number : Nat
  readers : Readers
  index_map : Index
  uncompact : Nat
deriving DecidableEq

/-- Result of one engine call: `Ok`/`Err` of the source `Result`, paired
with the post-call state, or `panic` for the `.expect("cannot find matched
reader")` branches (a process abort, carrying no state). -/
inductive StepRes (α : Type) where
  | ok : α → KVStore → StepRes α
  | err : KVStoreError → KVStore → StepRes α
  | panic : StepRes α
deriving DecidableEq

/-- Result component of a step, ignoring the state. -/
def StepRes.out {α : Type} : StepRes α → Option (Except KVStoreError α)
  | .ok a _ => some (.ok a)
  | .err e _ => some (.error e)
  | .panic => none

/-- State component of a step; a panic aborts the process, so the fallback
is returned in that case. -/
def StepRes.state {α : Type} : StepRes α → KVStore → KVStore
  | .ok _ s, _ => s
  | .err _ s, _ => s
  | .panic, s0 => s0

/-- Tracked position of the active writer: the length of the active segment
file (see the header for why this equals `current_writer.position`). -/
def writerPos (s : KVStore) : Nat :=
  ((rget s.readers s.current_file_number).map (fun r => r.data.length)).getD 0

/-- Append bytes to the active segment file (a buffered write followed by
the flush that `set`/`remove` perform before returning or compacting). -/
def appendActive (rs : Readers) (n : Nat) (bytes : List Char) : Readers :=
  match rget rs n with
  | some r => rset rs n ⟨r.data ++ bytes, r.pos⟩
  | none => rset rs n ⟨bytes, 0⟩

/-- Model of `new_file`: create/open the segment file for `n` and register
a fresh reader for it (cursor 0).  An existing file keeps its bytes
(`OpenOptions::create` does not truncate). -/
def newFileReaders (rs : Readers) (n : Nat) : Readers :=
  match rget rs n with
  | some r => rset rs n ⟨r.data, 0⟩
  | none => rs ++ [(n, ⟨[], 0⟩)]

/-- Copy loop of `KVStore::compact`: iterate the index entries in order,
copy each entry's `length` bytes at its stored location into the new
segment, and redirect the entry to the new segment.  Returns the rewritten
index, the accumulated bytes of the new segment, and the readers map with
updated cursors; `none` models the `.expect("cannot find matched reader")`
panic. -/
def compactLoop : Index → Readers → Nat → Nat → List Char →
    Option (Index × List Char × Readers)
  | [], rs, _, _, acc => some ([], acc, rs)
  | (k, md) :: rest, rs, cnum, offset, acc =>
    match rget rs md.file_number with
    | none => none
    | some r =>
      let copied := (r.data.drop md.offset).take md.length
      let rs2 := rset rs md.file_number ⟨r.data, md.offset + copied.length⟩
      let newPos := offset + copied.length
      match compactLoop rest rs2 cnum newPos (acc ++ copied) with
      | none => none
      | some (idx2, data2, rs3) =>
        some ((k, ⟨cnum, offset, newPos - offset⟩) :: idx2, data2, rs3)

/-- Model of `KVStore::compact`. -/
def compactOp (s : KVStore) : StepRes Unit :=
  let compact_file_number := s.current_file_number + 1
  let rs1 := newFileReaders s.readers compact_file_number
  match compactLoop s.index_map rs1 compact_file_number 0 [] with
  | none => .panic
  | some (idx2, compactData, rs2) =>
    let rs3 :=
      match rget rs2 compact_file_number with
      | some r => rset rs2 compact_file_number ⟨compactData, r.pos⟩
      | none => rset rs2 compact_file_number ⟨compactData, 0⟩
    let rs4 := rs3.filter (fun p => ! decide (p.1 < compact_file_number))
    let current2 := compact_file_number + 1
    .ok () { current_file_number := current2,
             readers := newFileReaders rs4 current2,
             index_map := idx2, uncompact := 0 }

/-- Model of `KVStore::set` (trait impl `KVStoreEngine for KVStore`). -/
def setOp (s : KVStore) (key value : String) : StepRes Unit :=
  let command := Command.Set key value
  let offset := writerPos s
  let command_length := (encode command).length
  let old_data := idxGet s.index_map key
  let s1 : KVStore :=
    { s with
      readers := appendActive s.readers s.current_file_number (encode command)
      index_map := idxInsert s.index_map key
        ⟨s.current_file_number, offset, command_length⟩
      uncompact := s.uncompact + (old_data.map CommandMedaData.length).getD 0 }
  if s1.uncompact > COMPACTION_THRESHOLD then compactOp s1 else .ok () s1

/-- Model of `KVStore::get`. -/
def getOp (s : KVStore) (key : String) : StepRes (Option String) :=
  match idxGet s.index_map key with
  | none => .ok none s
  | some md =>
    match rget s.readers md.file_number with
    | none => .panic
    | some r =>
      let dataBytes := (r.data.drop md.offset).take md.length
      let r2 : Rdr := ⟨r.data, md.offset + dataBytes.length⟩
      let s2 : KVStore :=
        { s with readers := rset s.readers md.file_number r2 }
      match decodeExact dataBytes with
      | .ok (.Set _ value) => .ok (some value) s2
      | .ok _ => .err .UnexpectedCommandType s2
      | .error _ => .err .Serde s2

/-- Model of `KVStore::remove`. -/
def removeOp (s : KVStore) (key : String) : StepRes Unit :=
  if (idxGet s.index_map key).isSome then
    let command_meta_data := idxGet s.index_map key
    let s1 : KVStore :=
      { s with
        index_map := idxRemove s.index_map key
        uncompact := s.uncompact +
          (command_meta_data.map CommandMedaData.length).getD 0 }
    let bytes := encode (Command.Remove key)
    let s2 : KVStore :=
      { s1 with
        readers := appendActive s1.readers s1.current_file_number bytes
        uncompact := s1.uncompact + bytes.length }
    if s2.uncompact > COMPACTION_THRESHOLD then compactOp s2 else .ok () s2
  else .err .KeyNotFound s

/-- Model of `load_uncompacted_data` on one segment file: replay the
record stream, applying each record to the index as the write path would,
and tally the reclaimable bytes. -/
def load (fnum : Nat) (bs : List Char) (old_offset : Nat) (idx : Index) :
    Except Unit (Index × Nat) :=
  if bs = [] then .ok (idx, 0)
  else
    match h : decodeOne bs with
    | none => .error ()
    | some (c, rest) =>
      have hlt : rest.length < bs.length := decodeOne_lt h
      let new_offset := old_offset + (bs.length - rest.length)
      match c with
      | .Set key _ =>
        let old_data := idxGet idx key
        match load fnum rest new_offset
            (idxInsert idx key ⟨fnum, old_offset, new_offset - old_offset⟩) with
        | .error e => .error e
        | .ok (idx2, st) =>
          .ok (idx2, (old_data.map CommandMedaData.length).getD 0 + st)
      | .Remove key =>
        let old_data := idxGet idx key
        match load fnum rest new_offset (idxRemove idx key) with
        | .error e => .error e
        | .ok (idx2, st) =>
          .ok (idx2, ((old_data.map CommandMedaData.length).getD 0 +
            (new_offset - old_offset)) + st)
termination_by bs.length

/-- Replay of all listed segments in ascending order, as the loop in
`KVStore::open` does, accumulating the index and the uncompacted tally. -/
def loadAll : List Nat → Disk → Index → Except Unit (Index × Nat)
  | [], _, idx => .ok (idx, 0)
  | n :: rest, disk, idx =>
    match dget disk n with
    | none => .error ()
    | some d =>
      match load n d 0 idx with
      | .error e => .error e
      | .ok (idx1, st1) =>
        match loadAll rest disk idx1 with
        | .error e => .error e
        | .ok (idx2, st2) => .ok (idx2, st1 + st2)

/-- Model of `KVStore::open` on a directory whose segment files are
canonically named (exactly the directories the engine itself produces):
list and sort the segment numbers, replay them in order, then create the
next segment (`last + 1`, or `1` when none exist) as the active one. -/
def openOp (disk : Disk) : Except Unit KVStore :=
  let file_num_list := List.insertionSort (· ≤ ·) (disk.map Prod.fst)
  match loadAll file_num_list disk [] with
  | .error e => .error e
  | .ok (index_map, uncompact) =>
    let readers : Readers := file_num_list.filterMap
      (fun n => (dget disk n).map (fun d => (n, Rdr.mk d d.length)))
    let current_file_number := file_num_list.getLast?.getD 0 + 1
    .ok { current_file_number := current_file_number,
          readers := newFileReaders readers current_file_number,
          index_map := index_map, uncompact := uncompact }

/-- On-disk contents corresponding to an engine state (the segment files
mirrored by the readers map). -/
def diskOf (s : KVStore) : Disk := s.readers.map (fun p => (p.1, p.2.data))

def SameData (rs1 rs2 : Readers) : Prop :=
  ∀ n, (rget rs1 n).map Rdr.data = (rget rs2 n).map Rdr.data

/-- Bytes visible at an index entry's stored location: seek the registered
reader to `offset` and read `length` bytes (fewer when the file ends). -/
def readData (rs : Readers) (md : CommandMedaData) : Option (List Char) :=
  (rget rs md.file_number).map (fun r => (r.data.drop md.offset).take md.length)

/-- Specification-side description of `get` (spec section 4.6, with the
error taxonomy of section 7): look the key up in the index; absent means
the result is Ok with no value (not an error); present means the reader
registered for the location's segment is sought to the stored offset and
exactly `length` bytes are read (the panic stands for a missing reader);
a successful decode of a `Set` record yields its value, a successful
decode of any other record kind is an UnexpectedCommandType error, and a
failed decode is a serialization (Serde) error. -/
def specGet (s : KVStore) (k : String) :
    Option (Except KVStoreError (Option String)) :=
  match idxGet s.index_map k with
  | none => some (.ok none)
  | some md =>
    match readData s.readers md with
    | none => none
    | some bytes =>
      match decodeExact bytes with
      | .ok (.Set _ v) => some (.ok (some v))
      | .ok _ => some (.error .UnexpectedCommandType)
      | .error _ => some (.error .Serde)

/-- Concatenation of the byte slices of the index entries, in index order:
the contents that `compact` writes into the new segment. -/
def slicesOf (rs : Readers) : Index → List Char
  | [] => []
  | (_, md) :: rest => ((readData rs md).getD []) ++ slicesOf rs rest

/-- The index produced by `compact`: each entry redirected to the new
segment, at consecutive offsets, with the actually-copied lengths. -/
def reassign (rs : Readers) (cnum : Nat) : Index → Nat → Index
  | [], _ => []
  | (k, md) :: rest, off =>
    (k, ⟨cnum, off, ((readData rs md).getD []).length⟩) ::
      reassign rs cnum rest (off + ((readData rs md).getD []).length)

/-- Effect of one replayed record on the index, as both the write path and
`load_uncompacted_data` perform it. -/
def applyRec (fn pos : Nat) (c : Command) (idx : Index) : Index :=
  match c with
  | .Set k _ => idxInsert idx k ⟨fn, pos, (encode c).length⟩
  | .Remove k => idxRemove idx k

/-- A well-formed index entry: its location lies inside the registered
segment file and holds exactly the encoding of a `Set` of the same key. -/
def ValidEntry (rs : Readers) (k : String) (md : CommandMedaData) : Prop :=
  ∃ r v, rget rs md.file_number = some r ∧
    md.length = (encode (Command.Set k v)).length ∧
    md.offset + md.length ≤ r.data.length ∧
    (r.data.drop md.offset).take md.length = encode (Command.Set k v)

/-- Internal invariant of reachable engine states: segment numbers are
strictly ascending with the active one last, the index is sorted, every
index entry is well formed, and replaying the on-disk segments rebuilds
exactly the in-memory index. -/
def Inv (s : KVStore) : Prop :=
  (s.readers.map Prod.fst).Pairwise (· < ·) ∧
  (s.readers.map Prod.fst).getLast? = some s.current_file_number ∧
  s.index_map.Pairwise (fun a b => strLt a.1 b.1 = true) ∧
  (∀ p ∈ s.index_map, ValidEntry s.readers p.1 p.2) ∧
  ∃ u, loadAll (s.readers.map Prod.fst) (diskOf s) [] = .ok (s.index_map, u)

/-! ## Segment directory listing (`sort_file_by_number`)

These functions model `sort_file_by_number` from `kvs.rs` (identical in
`src/on_disk/on-disk/src/kv.rs`).  The input is the list of names of the
regular files in the base directory (`fs::read_dir`, unspecified order). -/

/-- Split a file name around its last dot: `some (before, after)`, or
`none` when it contains no dot. -/
def lastDotSplit : List Char → Option (List Char × List Char)
  | [] => none
  | c :: rest =>
    match lastDotSplit rest with
    | some (b, a) => some (c :: b, a)
    | none => if c = '.' then some ([], rest) else none

/-- Rust `Path::extension` on a plain file name: the portion after the
final dot; absent when there is no dot or when the only dot is the leading
character (hidden files such as `.log`). -/
def pathExtension (name : String) : Option String :=
  match lastDotSplit name.data with
  | none => none
  | some ([], _) => none
  | some (_ :: _, after) => some ⟨after⟩

/-- Rust `str::trim_end_matches(".log")` on the reversed character list:
remove every trailing repetition of `.log`. -/
def trimEndLogAux : List Char → List Char
  | 'g' :: 'o' :: 'l' :: '.' :: rest => trimEndLogAux rest
  | other => other

/-- Rust `str::trim_end_matches(".log")`. -/
def trimEndLog (name : String) : String :=
  ⟨(trimEndLogAux name.data.reverse).reverse⟩

/-- Rust `str::parse::<u64>`: an optional leading plus sign, then one or
more ASCII digits, failing on anything else and on `u64` overflow. -/
def parseU64 (s : String) : Option Nat :=
  let cs := match s.data with
    | '+' :: rest => rest
    | l => l
  if cs.isEmpty then none
  else if cs.all Char.isDigit then
    let v := cs.foldl (fun acc c => acc * 10 + (c.toNat - '0'.toNat)) 0
    if v < 2 ^ 64 then some v else none
  else none

/-- Model of `sort_file_by_number`: keep the regular files whose extension
is `log`, trim every trailing `.log` repetition from the full name, parse
the rest as a `u64` (silently skipping failures), and sort ascending. -/
def sort_file_by_number (names : List String) : List Nat :=
  List.insertionSort (· ≤ ·)
    ((names.filter (fun n => pathExtension n == some "log")).filterMap
      (fun n => parseU64 (trimEndLog n)))

/-- Stripping the extension (once), as the words of claim C7 prescribe:
the file stem, i.e. everything before the final dot. -/
def stripExtensionOnce (name : String) : String :=
  match lastDotSplit name.data with
  | none => name
  | some ([], _) => name
  | some (b :: bs, _) => ⟨b :: bs⟩

/-- The listing recipe exactly as claim C7 words it: take the files with
the log extension, strip the extension, parse the remaining text as an
unsigned integer, silently skip files whose name fails to parse, and
return the sorted ascending list. -/
def specSortFileByNumber (names : List String) : List Nat :=
  List.insertionSort (· ≤ ·)
    ((names.filter (fun n => pathExtension n == some "log")).filterMap
      (fun n => parseU64 (stripExtensionOnce n)))

/-! ## Concrete sample states used by witnesses and counterexamples -/

/-- The state produced by opening an empty directory. -/
def samp0 : KVStore := ⟨1, [(1, ⟨[], 0⟩)], [], 0⟩

/-- `samp0` after `set "a" "1"`. -/
def samp1 : KVStore :=
  ⟨1, [(1, ⟨['S', '1', '0', 'a', '1', '0', '1'], 0⟩)],
    [("a", ⟨1, 0, 7⟩)], 0⟩

/-- `samp1` after `remove "a"`. -/
def samp2 : KVStore :=
  ⟨1, [(1, ⟨['S', '1', '0', 'a', '1', '0', '1', 'R', '1', '0', 'a'], 0⟩)],
    [], 11⟩

/-- A desynchronized state for claim C5: the index entry of key `k` points
at bytes that are not a valid record encoding, so `get` propagates a
serialization error rather than `UnexpectedCommandType`. -/
def c5State : KVStore := ⟨1, [(1, ⟨['?'], 0⟩)], [("k", ⟨1, 0, 1⟩)], 0⟩

/-- A state for claim C6 whose stale-byte counter sits exactly at the
compaction threshold (as arises after about a mebibyte of superseded
writes), so that the next superseding `set` crosses the threshold. -/
def c6State : KVStore :=
  ⟨1, [(1, ⟨[], 0⟩)], [("a", ⟨1, 0, 5⟩)], 1048576⟩

/-- The state `setOp c6State "a" "y"` returns: the write pushed the
counter to 1048581, which triggered inline compaction and reset it to 0. -/
def c6After : KVStore :=
  ⟨3, [(2, ⟨['S', '1', '0', 'a', '1', '0', 'y'], 0⟩), (3, ⟨[], 0⟩)],
    [("a", ⟨2, 0, 7⟩)], 0⟩

/-- The state `compactOp samp1` returns: the single live record copied
into segment 2, segment 1 deleted, segment 3 opened as the active file. -/
def sampC : KVStore :=
  ⟨3, [(2, ⟨['S', '1', '0', 'a', '1', '0', '1'], 0⟩), (3, ⟨[], 0⟩)],
    [("a", ⟨2, 0, 7⟩)], 0⟩

/-- States reachable from opening an empty directory by engine calls,
including close/reopen cycles. -/
inductive Reachable : KVStore → Prop where
  | boot : ∀ {s}, openOp [] = .ok s → Reachable s
  | doSet : ∀ {s} (k v : String), Reachable s →
      Reachable ((setOp s k v).state s)
  | doGet : ∀ {s} (k : String), Reachable s →
      Reachable ((getOp s k).state s)
  | doRemove : ∀ {s} (k : String), Reachable s →
      Reachable ((removeOp s k).state s)
  | doCompact : ∀ {s}, Reachable s → Reachable ((compactOp s).state s)
  | reopen : ∀ {s s'}, Reachable s → openOp (diskOf s) = .ok s' →
      Reachable s'


/-! ## Theorems -/

theorem idxGet_insert_self (m : Index) (k : String) (v : CommandMedaData) :
    idxGet (idxInsert m k v) k = some v := by
  induction m with
  | nil => simp [idxInsert, idxGet]
  | cons p rest ih =>
    obtain ⟨k', v'⟩ := p
    rw [idxInsert]
    by_cases hlt : strLt k k' = true
    · rw [if_pos hlt]
      simp [idxGet]
    · rw [if_neg hlt]
      by_cases heq : k = k'
      · rw [if_pos heq]
        simp [idxGet]
      · rw [if_neg heq]
        rw [idxGet, if_neg heq]
        exact ih

theorem idxGet_insert_ne (m : Index) (k k2 : String) (v : CommandMedaData)
    (hne : k2 ≠ k) : idxGet (idxInsert m k v) k2 = idxGet m k2 := by
  induction m with
  | nil => simp [idxInsert, idxGet, hne]
  | cons p rest ih =>
    obtain ⟨k', v'⟩ := p
    rw [idxInsert]
    by_cases hlt : strLt k k' = true
    · rw [if_pos hlt]
      rw [idxGet, if_neg hne]
    · rw [if_neg hlt]
      by_cases heq : k = k'
      · rw [if_pos heq]
        rw [idxGet, if_neg (heq ▸ hne)]
        rw [idxGet, if_neg (heq ▸ hne)]
      · rw [if_neg heq]
        rw [idxGet, idxGet]
        by_cases h2 : k2 = k'
        · rw [if_pos h2, if_pos h2]
        · rw [if_neg h2, if_neg h2]
          exact ih

theorem idxGet_remove_self (m : Index) (k : String)
    (hnd : (m.map Prod.fst).Nodup) : idxGet (idxRemove m k) k = none := by
  induction m with
  | nil => simp [idxRemove, idxGet]
  | cons p rest ih =>
    obtain ⟨k', v'⟩ := p
    simp only [List.map_cons, List.nodup_cons] at hnd
    rw [idxRemove]
    by_cases heq : k = k'
    · rw [if_pos heq]
      subst heq
      cases hg : idxGet rest k with
      | none => rfl
      | some w =>
        exfalso
        apply hnd.1
        clear ih hnd
        induction rest with
        | nil => simp [idxGet] at hg
        | cons q tl ih2 =>
          obtain ⟨q1, q2⟩ := q
          rw [idxGet] at hg
          by_cases hq : k = q1
          · simp [hq]
          · rw [if_neg hq] at hg
            simp only [List.map_cons, List.mem_cons]
            exact Or.inr (ih2 hg)
    · rw [if_neg heq]
      rw [idxGet, if_neg heq]
      exact ih hnd.2

theorem idxGet_remove_ne (m : Index) (k k2 : String) (hne : k2 ≠ k)
    (hnd : (m.map Prod.fst).Nodup) :
    idxGet (idxRemove m k) k2 = idxGet m k2 := by
  induction m with
  | nil => simp [idxRemove]
  | cons p rest ih =>
    obtain ⟨k', v'⟩ := p
    simp only [List.map_cons, List.nodup_cons] at hnd
    rw [idxRemove]
    by_cases heq : k = k'
    · rw [if_pos heq]
      rw [idxGet, if_neg (heq ▸ hne)]
    · rw [if_neg heq]
      rw [idxGet, idxGet]
      by_cases h2 : k2 = k'
      · rw [if_pos h2, if_pos h2]
      · rw [if_neg h2, if_neg h2]
        exact ih hnd.2

theorem idxInsert_keys_sub (m : Index) (k : String) (v : CommandMedaData) :
    ∀ k2, k2 ∈ (idxInsert m k v).map Prod.fst → k2 ∈ k :: m.map Prod.fst := by
  induction m with
  | nil => simp [idxInsert]
  | cons p rest ih =>
    obtain ⟨k', v'⟩ := p
    intro k2 h2
    rw [idxInsert] at h2
    by_cases hlt : strLt k k' = true
    · rw [if_pos hlt] at h2
      simpa using h2
    · rw [if_neg hlt] at h2
      by_cases heq : k = k'
      · rw [if_pos heq] at h2
        simp only [List.map_cons, List.mem_cons] at h2 ⊢
        rcases h2 with h2 | h2
        · exact Or.inl h2
        · exact Or.inr (Or.inr h2)
      · rw [if_neg heq] at h2
        simp only [List.map_cons, List.mem_cons] at h2 ⊢
        rcases h2 with h2 | h2
        · exact Or.inr (Or.inl h2)
        · rcases List.mem_cons.mp (ih k2 h2) with h3 | h3
          · exact Or.inl h3
          · exact Or.inr (Or.inr h3)

theorem idxRemove_keys_sub (m : Index) (k : String) :
    ∀ k2, k2 ∈ (idxRemove m k).map Prod.fst → k2 ∈ m.map Prod.fst := by
  induction m with
  | nil => simp [idxRemove]
  | cons p rest ih =>
    obtain ⟨k', v'⟩ := p
    intro k2 h2
    rw [idxRemove] at h2
    by_cases heq : k = k'
    · rw [if_pos heq] at h2
      simp only [List.map_cons, List.mem_cons]
      exact Or.inr h2
    · rw [if_neg heq] at h2
      simp only [List.map_cons, List.mem_cons] at h2 ⊢
      rcases h2 with h2 | h2
      · exact Or.inl h2
      · exact Or.inr (ih k2 h2)

theorem char_toNat_inj {a b : Char} (h : a.toNat = b.toNat) : a = b := by
  have ha := Char.ofNat_toNat a
  rw [h, Char.ofNat_toNat b] at ha
  exact ha.symm

theorem strLtAux_trans : ∀ {a b c : List Char},
    strLtAux a b = true → strLtAux b c = true → strLtAux a c = true := by
  intro a
  induction a with
  | nil =>
    intro b c hab hbc
    cases c with
    | nil =>
      cases b with
      | nil => simp [strLtAux] at hab
      | cons y ys => simp [strLtAux] at hbc
    | cons z zs => rfl
  | cons x xs ih =>
    intro b c hab hbc
    cases b with
    | nil => simp [strLtAux] at hab
    | cons y ys =>
      cases c with
      | nil => simp [strLtAux] at hbc
      | cons z zs =>
        rw [strLtAux] at hab hbc ⊢
        by_cases h1 : x.toNat < y.toNat
        · by_cases h2 : y.toNat < z.toNat
          · rw [if_pos (by omega : x.toNat < z.toNat)]
          · rw [if_neg h2] at hbc
            by_cases h2b : z.toNat < y.toNat
            · rw [if_pos h2b] at hbc
              simp at hbc
            · rw [if_neg h2b] at hbc
              rw [if_pos (by omega : x.toNat < z.toNat)]
        · rw [if_neg h1] at hab
          by_cases h1b : y.toNat < x.toNat
          · rw [if_pos h1b] at hab
            simp at hab
          · rw [if_neg h1b] at hab
            by_cases h2 : y.toNat < z.toNat
            · rw [if_pos (by omega : x.toNat < z.toNat)]
            · rw [if_neg h2] at hbc
              by_cases h2b : z.toNat < y.toNat
              · rw [if_pos h2b] at hbc
                simp at hbc
              · rw [if_neg h2b] at hbc
                rw [if_neg (by omega : ¬ x.toNat < z.toNat),
                  if_neg (by omega : ¬ z.toNat < x.toNat)]
                exact ih hab hbc

theorem strLtAux_eq_of_not : ∀ {a b : List Char},
    strLtAux a b = false → strLtAux b a = false → a = b := by
  intro a
  induction a with
  | nil =>
    intro b hab _
    cases b with
    | nil => rfl
    | cons y ys => simp [strLtAux] at hab
  | cons x xs ih =>
    intro b hab hba
    cases b with
    | nil => simp [strLtAux] at hba
    | cons y ys =>
      rw [strLtAux] at hab hba
      by_cases h1 : x.toNat < y.toNat
      · rw [if_pos h1] at hab
        simp at hab
      · rw [if_neg h1] at hab
        by_cases h1b : y.toNat < x.toNat
        · rw [if_pos h1b] at hba
          simp at hba
        · rw [if_neg h1b] at hab
          rw [if_neg h1b, if_neg h1] at hba
          have hx : x = y := char_toNat_inj (by omega)
          rw [hx, ih hab hba]

theorem strLt_trans {a b c : String} (h1 : strLt a b = true)
    (h2 : strLt b c = true) : strLt a c = true :=
  strLtAux_trans h1 h2

theorem strLt_of_not_of_ne {a b : String} (h1 : ¬ strLt a b = true)
    (h2 : a ≠ b) : strLt b a = true := by
  cases hba : strLt b a
  · have hab : strLt a b = false := by
      cases hab : strLt a b
      · rfl
      · exact absurd hab h1
    have hdata : a.data = b.data := strLtAux_eq_of_not hab hba
    have heq : a = b := by
      cases a
      cases b
      exact congrArg String.mk hdata
    exact absurd heq h2
  · rfl

theorem idxInsert_pairwise (m : Index) (k : String) (v : CommandMedaData)
    (h : m.Pairwise (fun a b => strLt a.1 b.1 = true)) :
    (idxInsert m k v).Pairwise (fun a b => strLt a.1 b.1 = true) := by
  induction m with
  | nil => simp [idxInsert]
  | cons p rest ih =>
    obtain ⟨k', v'⟩ := p
    rw [List.pairwise_cons] at h
    rw [idxInsert]
    by_cases hlt : strLt k k' = true
    · rw [if_pos hlt]
      rw [List.pairwise_cons]
      refine ⟨?_, List.pairwise_cons.mpr h⟩
      intro q hq
      rcases List.mem_cons.mp hq with rfl | hq'
      · exact hlt
      · exact strLt_trans hlt (h.1 q hq')
    · rw [if_neg hlt]
      by_cases heq : k = k'
      · rw [if_pos heq]
        rw [List.pairwise_cons]
        exact ⟨fun q hq => heq ▸ h.1 q hq, h.2⟩
      · rw [if_neg heq]
        have hgt : strLt k' k = true := strLt_of_not_of_ne hlt heq
        rw [List.pairwise_cons]
        refine ⟨?_, ih h.2⟩
        intro q hq
        have hkey : q.1 ∈ (idxInsert rest k v).map Prod.fst :=
          List.mem_map_of_mem Prod.fst hq
        rcases List.mem_cons.mp (idxInsert_keys_sub rest k v q.1 hkey) with
          h2 | h2
        · rw [h2]
          exact hgt
        · obtain ⟨b, hb, hbeq⟩ := List.mem_map.mp h2
          rw [← hbeq]
          exact h.1 b hb

theorem idxRemove_sublist (m : Index) (k : String) :
    (idxRemove m k).Sublist m := by
  induction m with
  | nil => simp [idxRemove]
  | cons p rest ih =>
    obtain ⟨k', v'⟩ := p
    rw [idxRemove]
    by_cases heq : k = k'
    · rw [if_pos heq]
      exact List.sublist_cons_self _ _
    · rw [if_neg heq]
      exact ih.cons₂ _

theorem idxRemove_pairwise (m : Index) (k : String)
    (h : m.Pairwise (fun a b => strLt a.1 b.1 = true)) :
    (idxRemove m k).Pairwise (fun a b => strLt a.1 b.1 = true) :=
  h.sublist (idxRemove_sublist m k)

/-! ## Basic facts about the readers map -/

theorem rget_rset_self (rs : Readers) (n : Nat) (r : Rdr) :
    rget (rset rs n r) n = some r := by
  induction rs with
  | nil => simp [rset, rget]
  | cons p rest ih =>
    obtain ⟨n', r'⟩ := p
    rw [rset]
    by_cases h : n = n'
    · rw [if_pos h, rget, if_pos rfl]
    · rw [if_neg h, rget, if_neg h]
      exact ih

theorem rget_rset_ne (rs : Readers) (n m : Nat) (r : Rdr) (h : m ≠ n) :
    rget (rset rs n r) m = rget rs m := by
  induction rs with
  | nil => simp [rset, rget, h]
  | cons p rest ih =>
    obtain ⟨n', r'⟩ := p
    rw [rset]
    by_cases hn : n = n'
    · rw [if_pos hn, rget, if_neg (hn ▸ h), rget, if_neg (hn ▸ h)]
    · rw [if_neg hn, rget, rget]
      by_cases hm : m = n'
      · rw [if_pos hm, if_pos hm]
      · rw [if_neg hm, if_neg hm]
        exact ih

theorem map_fst_rset_present (rs : Readers) (n : Nat) (r : Rdr)
    (h : (rget rs n).isSome) :
    (rset rs n r).map Prod.fst = rs.map Prod.fst := by
  induction rs with
  | nil => simp [rget] at h
  | cons p rest ih =>
    obtain ⟨n', r'⟩ := p
    rw [rset]
    by_cases hn : n = n'
    · rw [if_pos hn]
      simp [hn]
    · rw [if_neg hn]
      rw [rget, if_neg hn] at h
      simp [ih h]

theorem rget_append_left (rs rs' : Readers) (n : Nat)
    (h : (rget rs n).isSome) : rget (rs ++ rs') n = rget rs n := by
  induction rs with
  | nil => simp [rget] at h
  | cons p rest ih =>
    obtain ⟨n', r'⟩ := p
    rw [List.cons_append, rget, rget]
    by_cases hn : n = n'
    · rw [if_pos hn, if_pos hn]
    · rw [if_neg hn, if_neg hn]
      rw [rget, if_neg hn] at h
      exact ih h

theorem rget_append_right (rs rs' : Readers) (n : Nat)
    (h : rget rs n = none) : rget (rs ++ rs') n = rget rs' n := by
  induction rs with
  | nil => simp [rget]
  | cons p rest ih =>
    obtain ⟨n', r'⟩ := p
    rw [rget] at h
    by_cases hn : n = n'
    · rw [if_pos hn] at h
      simp at h
    · rw [if_neg hn] at h
      rw [List.cons_append, rget, if_neg hn]
      exact ih h

theorem rget_singleton (n m : Nat) (r : Rdr) :
    rget [(n, r)] m = if m = n then some r else none := by
  rw [rget]
  by_cases h : m = n
  · rw [if_pos h, if_pos h]
  · rw [if_neg h, if_neg h, rget]

theorem rget_newFileReaders_ne (rs : Readers) (n m : Nat) (h : m ≠ n) :
    rget (newFileReaders rs n) m = rget rs m := by
  rw [newFileReaders]
  cases hg : rget rs n with
  | some r => exact rget_rset_ne rs n m _ h
  | none =>
    cases hm : rget rs m with
    | some rm => rw [rget_append_left rs _ m (by simp [hm]), hm]
    | none =>
      simp only [rget_append_right rs _ m hm, rget_singleton, if_neg h, hm]

theorem rget_newFileReaders_self (rs : Readers) (n : Nat) :
    rget (newFileReaders rs n) n =
      some ⟨((rget rs n).map Rdr.data).getD [], 0⟩ := by
  rw [newFileReaders]
  cases hg : rget rs n with
  | some r => rw [rget_rset_self]; rfl
  | none =>
    rw [rget_append_right rs _ n hg, rget_singleton, if_pos rfl]
    simp

theorem rget_filter_ge (rs : Readers) (c n : Nat) :
    rget (rs.filter (fun p => ! decide (p.1 < c))) n =
      if n < c then none else rget rs n := by
  induction rs with
  | nil => simp [rget]
  | cons p rest ih =>
    obtain ⟨n', r'⟩ := p
    by_cases hn' : n' < c
    · rw [List.filter_cons_of_neg (by simpa using hn'), ih]
      by_cases hnc : n < c
      · rw [if_pos hnc, if_pos hnc]
      · rw [if_neg hnc, if_neg hnc, rget, if_neg (by omega : ¬ n = n')]
    · rw [List.filter_cons_of_pos (by simpa using hn')]
      by_cases h : n = n'
      · subst h
        rw [rget, if_pos rfl, if_neg hn', rget, if_pos rfl]
      · rw [rget, if_neg h, ih]
        by_cases hnc : n < c
        · rw [if_pos hnc, if_pos hnc]
        · rw [if_neg hnc, if_neg hnc, rget, if_neg h]

/-- Two readers maps that agree on file bytes at every number (cursor
positions may differ). -/
theorem sameData_refl (rs : Readers) : SameData rs rs := fun _ => rfl

theorem sameData_trans {a b c : Readers} (h1 : SameData a b)
    (h2 : SameData b c) : SameData a c := fun n => (h1 n).trans (h2 n)

theorem sameData_rset_pos (rs : Readers) (n : Nat) (r : Rdr) (p : Nat)
    (h : rget rs n = some r) : SameData (rset rs n ⟨r.data, p⟩) rs := by
  intro m
  by_cases hm : m = n
  · subst hm
    rw [rget_rset_self, h]
    rfl
  · rw [rget_rset_ne rs n m _ hm]

/-! ### Characterization of `get` -/

theorem getOp_out_eq (s : KVStore) (k : String) :
    (getOp s k).out = specGet s k := by
  cases h : idxGet s.index_map k with
  | none => simp [getOp, specGet, h, StepRes.out]
  | some md =>
    cases hr : rget s.readers md.file_number with
    | none => simp [getOp, specGet, readData, h, hr, StepRes.out]
    | some r =>
      cases hdec : decodeExact ((r.data.drop md.offset).take md.length) with
      | ok c =>
        cases c <;> simp [getOp, specGet, readData, h, hr, hdec, StepRes.out]
      | error e =>
        simp [getOp, specGet, readData, h, hr, hdec, StepRes.out]

theorem getOp_state_eq (s : KVStore) (k : String) :
    ((getOp s k).state s).index_map = s.index_map ∧
    ((getOp s k).state s).current_file_number = s.current_file_number ∧
    ((getOp s k).state s).uncompact = s.uncompact ∧
    SameData ((getOp s k).state s).readers s.readers := by
  cases h : idxGet s.index_map k with
  | none => simp [getOp, h, StepRes.state, sameData_refl]
  | some md =>
    cases hr : rget s.readers md.file_number with
    | none => simp [getOp, h, hr, StepRes.state, sameData_refl]
    | some r =>
      cases hdec : decodeExact ((r.data.drop md.offset).take md.length) with
      | ok c =>
        cases c <;> simp [getOp, h, hr, hdec, StepRes.state] <;>
          exact sameData_rset_pos _ _ _ _ hr
      | error e =>
        simp [getOp, h, hr, hdec, StepRes.state]
        exact sameData_rset_pos _ _ _ _ hr

theorem specGet_congr {s1 s2 : KVStore} (k : String)
    (hidx : s1.index_map = s2.index_map)
    (hdata : SameData s1.readers s2.readers) :
    specGet s1 k = specGet s2 k := by
  rw [specGet, specGet, hidx]
  cases h : idxGet s2.index_map k with
  | none => rfl
  | some md =>
    have hd := hdata md.file_number
    simp only [readData]
    cases h1 : rget s1.readers md.file_number with
    | none =>
      cases h2 : rget s2.readers md.file_number with
      | none => rfl
      | some r2 => rw [h1, h2] at hd; simp at hd
    | some r1 =>
      cases h2 : rget s2.readers md.file_number with
      | none => rw [h1, h2] at hd; simp at hd
      | some r2 =>
        rw [h1, h2] at hd
        simp only [Option.map_some', Option.some.injEq] at hd
        simp only [Option.map_some']
        rw [hd]

/-- Claim C8: for every engine state, repeated `get` of the same key with
no intervening write returns an identical result: the second call, run on
the state the first one leaves behind, produces the same outcome. -/
theorem claim8_idempotent_reads (s : KVStore) (k : String) :
    (getOp ((getOp s k).state s) k).out = (getOp s k).out := by
  obtain ⟨hidx, _, _, hsd⟩ := getOp_state_eq s k
  rw [getOp_out_eq, getOp_out_eq]
  exact specGet_congr k hidx hsd

/-! ### Facts about `remove` -/

theorem removeOp_absent (s : KVStore) (k : String)
    (h : idxGet s.index_map k = none) :
    removeOp s k = .err .KeyNotFound s := by
  simp [removeOp, h]

/-- Claim C10: when `remove` fails with KeyNotFound (the key is absent
from the index), the engine state is returned completely unchanged: no
record is appended, and the index, the stale-byte counter and the active
segment number are exactly as before, with no compaction triggered. -/
theorem claim10_remove_missing_unchanged (s : KVStore) (k : String)
    (h : idxGet s.index_map k = none) :
    removeOp s k = .err .KeyNotFound s :=
  removeOp_absent s k h

/-- Witness for claim C10 at a concrete state. -/
theorem claim10_witness :
    removeOp samp0 "a" = .err .KeyNotFound samp0 :=
  claim10_remove_missing_unchanged samp0 "a" rfl

theorem idxGet_eq_none_iff (m : Index) (k : String) :
    idxGet m k = none ↔ k ∉ m.map Prod.fst := by
  induction m with
  | nil => simp [idxGet]
  | cons p rest ih =>
    obtain ⟨k', v'⟩ := p
    rw [idxGet]
    by_cases h : k = k'
    · rw [if_pos h]
      simp [h]
    · rw [if_neg h]
      simp [h, ih]

/-! ### Structure of `compact` results -/

theorem compactLoop_keys :
    ∀ (entries : Index) (rs : Readers) (cnum off : Nat) (acc : List Char)
      {idx2 : Index} {data2 : List Char} {rs2 : Readers},
    compactLoop entries rs cnum off acc = some (idx2, data2, rs2) →
    idx2.map Prod.fst = entries.map Prod.fst := by
  intro entries
  induction entries with
  | nil =>
    intro rs cnum off acc idx2 data2 rs2 h
    rw [compactLoop] at h
    simp only [Option.some.injEq, Prod.mk.injEq] at h
    rw [← h.1]
  | cons p rest ih =>
    obtain ⟨k, md⟩ := p
    intro rs cnum off acc idx2 data2 rs2 h
    rw [compactLoop] at h
    cases hr : rget rs md.file_number with
    | none => rw [hr] at h; simp at h
    | some r =>
      rw [hr] at h
      simp only [] at h
      cases hc : compactLoop rest
          (rset rs md.file_number
            ⟨r.data, md.offset + ((r.data.drop md.offset).take md.length).length⟩)
          cnum (off + ((r.data.drop md.offset).take md.length).length)
          (acc ++ (r.data.drop md.offset).take md.length) with
      | none => rw [hc] at h; simp at h
      | some t =>
        obtain ⟨i2, d2, r3⟩ := t
        rw [hc] at h
        simp only [Option.some.injEq, Prod.mk.injEq] at h
        obtain ⟨h1, _, _⟩ := h
        rw [← h1]
        simp [ih _ _ _ _ hc]

theorem compactOp_ok_struct {s s' : KVStore} (h : compactOp s = .ok () s') :
    s'.index_map.map Prod.fst = s.index_map.map Prod.fst ∧
    s'.uncompact = 0 ∧
    s'.current_file_number = s.current_file_number + 2 := by
  rw [compactOp] at h
  cases hc : compactLoop s.index_map
      (newFileReaders s.readers (s.current_file_number + 1))
      (s.current_file_number + 1) 0 [] with
  | none => rw [hc] at h; simp at h
  | some t =>
    obtain ⟨idx2, data2, rs2⟩ := t
    rw [hc] at h
    simp only [StepRes.ok.injEq] at h
    rw [← h.2]
    exact ⟨compactLoop_keys _ _ _ _ _ hc, rfl, rfl⟩

/-! ### Claim C4: remove semantics -/

/-- Claim C4: after a successful `remove k`, `get k` reports no value and a
second `remove k` fails with KeyNotFound; `remove k` on a key absent from
the index (never set, or already removed) fails with KeyNotFound.  The
Nodup hypothesis is the `BTreeMap` representation invariant of the index
(a map cannot hold a key twice). -/
theorem claim4_remove_semantics :
    (∀ (s : KVStore) (k : String) (s' : KVStore),
      (s.index_map.map Prod.fst).Nodup →
      removeOp s k = .ok () s' →
      (getOp s' k).out = some (.ok none) ∧
      removeOp s' k = .err .KeyNotFound s') ∧
    (∀ (s : KVStore) (k : String), idxGet s.index_map k = none →
      removeOp s k = .err .KeyNotFound s) := by
  constructor
  · intro s k s' hnd hrem
    cases hk : idxGet s.index_map k with
    | none => rw [removeOp_absent s k hk] at hrem; simp at hrem
    | some md =>
      have hnone : idxGet s'.index_map k = none := by
        simp only [removeOp, hk, Option.isSome_some, if_pos] at hrem
        split at hrem
        · have hstruct := compactOp_ok_struct hrem
          rw [idxGet_eq_none_iff]
          rw [hstruct.1]
          simp only []
          rw [← idxGet_eq_none_iff]
          exact idxGet_remove_self s.index_map k hnd
        · simp only [StepRes.ok.injEq] at hrem
          rw [← hrem.2]
          exact idxGet_remove_self s.index_map k hnd
      constructor
      · simp [getOp, hnone, StepRes.out]
      · exact removeOp_absent s' k hnone
  · intro s k h
    exact removeOp_absent s k h

/-- Witness for claim C4 at concrete states: removing the key written by a
`set`, then observing `get` report no value and a second remove fail, and a
remove on a never-set key fail. -/
theorem claim4_witness :
    ((getOp samp2 "a").out = some (.ok none) ∧
      removeOp samp2 "a" = .err .KeyNotFound samp2) ∧
    removeOp samp0 "b" = .err .KeyNotFound samp0 :=
  ⟨claim4_remove_semantics.1 samp1 "a" samp2 (by decide) (by rfl),
    claim4_remove_semantics.2 samp0 "b" rfl⟩

/-! ### Claim C5: error taxonomy of `get` -/

/-- Counterexample for claim C5 as stated: in a desynchronized state whose
index entry points at bytes that fail to decode, `get` returns a
serialization (Serde) error, not the UnexpectedCommandType error the claim
prescribes for every unsuccessful-Set decode outcome. -/
theorem claim5_counterexample :
    (getOp c5State "k").out = some (.error .Serde) ∧
    (idxGet c5State.index_map "k").isSome = true ∧
    KVStoreError.Serde ≠ KVStoreError.UnexpectedCommandType :=
  ⟨rfl, rfl, by decide⟩

/-- Claim C5 (amended): `get` on an absent key is Ok-no-value; on a present
key it reads exactly `length` bytes at the stored location through the
registered reader, returning the decoded Set's value; a successful decode
of any other record kind is an UnexpectedCommandType error, while a failed
decode propagates as a serialization (Serde) error. -/
theorem claim5_amended_get_errors (s : KVStore) (k : String) :
    (getOp s k).out = specGet s k :=
  getOp_out_eq s k

/-! ### Claim C6: stale-byte counter deltas -/

/-- Counterexample for claim C6 as stated: with the counter at the
compaction threshold, a superseding `set` adds the old location's length
(5) but then triggers inline compaction, so the counter ends at 0, not at
old value plus 5. -/
theorem claim6_counterexample :
    setOp c6State "a" "y" = .ok () c6After ∧
    idxGet c6State.index_map "a" = some ⟨1, 0, 5⟩ ∧
    c6State.uncompact = 1048576 ∧ c6After.uncompact = 0 := by
  refine ⟨by rfl, rfl, rfl, rfl⟩

/-- Claim C6 (amended): `set` adds exactly the superseded location's length
(zero when the key was absent) and a successful `remove` adds exactly the
removed location's length plus the appended Remove record's own encoded
length; nothing else is added — but when the addition pushes the counter
over the compaction threshold, the triggered inline compaction resets it
to zero. -/
theorem claim6_amended_stale_deltas :
    (∀ (s : KVStore) (k v : String) (s' : KVStore),
      setOp s k v = .ok () s' →
      (s.uncompact + ((idxGet s.index_map k).map CommandMedaData.length).getD 0
          ≤ COMPACTION_THRESHOLD →
        s'.uncompact = s.uncompact +
          ((idxGet s.index_map k).map CommandMedaData.length).getD 0) ∧
      (COMPACTION_THRESHOLD < s.uncompact +
          ((idxGet s.index_map k).map CommandMedaData.length).getD 0 →
        s'.uncompact = 0)) ∧
    (∀ (s : KVStore) (k : String) (s' : KVStore),
      removeOp s k = .ok () s' →
      (s.uncompact + ((idxGet s.index_map k).map CommandMedaData.length).getD 0
          + (encode (Command.Remove k)).length ≤ COMPACTION_THRESHOLD →
        s'.uncompact = s.uncompact +
          ((idxGet s.index_map k).map CommandMedaData.length).getD 0
          + (encode (Command.Remove k)).length) ∧
      (COMPACTION_THRESHOLD < s.uncompact +
          ((idxGet s.index_map k).map CommandMedaData.length).getD 0
          + (encode (Command.Remove k)).length →
        s'.uncompact = 0)) := by
  constructor
  · intro s k v s' hset
    simp only [setOp] at hset
    split at hset
    · rename_i hgt
      have h0 := (compactOp_ok_struct hset).2.1
      constructor
      · intro hle
        omega
      · intro _
        exact h0
    · rename_i hng
      simp only [StepRes.ok.injEq] at hset
      constructor
      · intro _
        rw [← hset.2]
      · intro hlt
        omega
  · intro s k s' hrem
    cases hk : idxGet s.index_map k with
    | none => rw [removeOp_absent s k hk] at hrem; simp at hrem
    | some md =>
      simp only [removeOp, hk, Option.isSome_some, if_pos] at hrem
      split at hrem
      · rename_i hgt
        have h0 := (compactOp_ok_struct hrem).2.1
        simp only [Option.map_some', Option.getD_some] at hgt
        constructor
        · intro hle
          simp only [hk, Option.map_some', Option.getD_some] at hle
          omega
        · intro _
          exact h0
      · rename_i hng
        simp only [StepRes.ok.injEq] at hrem
        simp only [Option.map_some', Option.getD_some] at hng
        constructor
        · intro _
          rw [← hrem.2]
        · intro hlt
          simp only [hk, Option.map_some', Option.getD_some] at hlt
          omega

/-- Witness for claim C6 (amended) at concrete states: the non-compacting
`set` and `remove` deltas. -/
theorem claim6_witness :
    samp1.uncompact = samp0.uncompact +
      ((idxGet samp0.index_map "a").map CommandMedaData.length).getD 0 ∧
    samp2.uncompact = samp1.uncompact +
      ((idxGet samp1.index_map "a").map CommandMedaData.length).getD 0 +
      (encode (Command.Remove "a")).length :=
  ⟨(claim6_amended_stale_deltas.1 samp0 "a" "1" samp1 (by decide)).1
      (by decide),
    (claim6_amended_stale_deltas.2 samp1 "a" samp2 (by decide)).1
      (by decide)⟩

/-! ### Claim C7: segment directory listing -/

/-- Counterexample for claim C7 as stated: the file name `3.log.log` has
the log extension; stripping the extension leaves `3.log`, which does not
parse as an unsigned integer, so the claim's recipe skips the file — but
the source trims every trailing `.log` repetition and returns 3. -/
theorem claim7_counterexample :
    sort_file_by_number ["3.log.log"] = [3] ∧
    specSortFileByNumber ["3.log.log"] = [] := by
  constructor <;> rfl

/-- Claim C7 (amended): the listing returns the ascending sort of the
numbers obtained from exactly the files with the log extension by trimming
every trailing repetition of `.log` from the name and parsing the rest as
an unsigned integer, silently skipping files whose name fails to parse. -/
theorem claim7_amended_listing (names : List String) :
    (sort_file_by_number names).Sorted (· ≤ ·) ∧
    (sort_file_by_number names).Perm
      ((names.filter (fun n => pathExtension n == some "log")).filterMap
        (fun n => parseU64 (trimEndLog n))) :=
  ⟨List.sorted_insertionSort _ _, List.perm_insertionSort _ _⟩

/-! ### Base facts for the reachable-state invariant -/

theorem strLtAux_irrefl : ∀ l : List Char, strLtAux l l = false := by
  intro l
  induction l with
  | nil => rfl
  | cons c tl ih =>
    rw [strLtAux, if_neg (by omega), if_neg (by omega)]
    exact ih

theorem strLt_irrefl (a : String) : strLt a a = false :=
  strLtAux_irrefl a.data

theorem strLt_ne {a b : String} (h : strLt a b = true) : a ≠ b := by
  intro he
  rw [he, strLt_irrefl] at h
  exact Bool.false_ne_true h

theorem nodup_keys_of_pairwise {l : Index}
    (h : l.Pairwise (fun a b => strLt a.1 b.1 = true)) :
    (l.map Prod.fst).Nodup :=
  List.pairwise_map.mpr (h.imp fun hab => strLt_ne hab)

theorem rget_isSome_iff_mem (rs : Readers) (n : Nat) :
    (rget rs n).isSome ↔ n ∈ rs.map Prod.fst := by
  induction rs with
  | nil => simp [rget]
  | cons p rest ih =>
    obtain ⟨n', r'⟩ := p
    rw [rget]
    by_cases h : n = n'
    · rw [if_pos h]
      simp [h]
    · rw [if_neg h]
      simp [h, ih]

theorem le_getLast_of_pairwise :
    ∀ {l : List Nat} {m : Nat}, l.Pairwise (· < ·) → l.getLast? = some m →
    ∀ n ∈ l, n ≤ m := by
  intro l
  induction l with
  | nil => intro m _ _ n hn; simp at hn
  | cons a tl ih =>
    intro m hp hl n hn
    rw [List.pairwise_cons] at hp
    cases tl with
    | nil =>
      simp at hl
      rcases List.mem_cons.mp hn with rfl | hn'
      · omega
      · simp at hn'
    | cons b tl2 =>
      rw [List.getLast?_cons_cons] at hl
      have hm := ih hp.2 hl
      rcases List.mem_cons.mp hn with rfl | hn'
      · have hb : b ≤ m := hm b (List.mem_cons_self _ _)
        have : n < b := hp.1 b (List.mem_cons_self _ _)
        omega
      · exact hm n hn'

theorem dget_append_left (d1 d2 : Disk) (n : Nat)
    (h : (dget d1 n).isSome) : dget (d1 ++ d2) n = dget d1 n := by
  induction d1 with
  | nil => simp [dget] at h
  | cons p rest ih =>
    obtain ⟨n', v'⟩ := p
    rw [List.cons_append, dget, dget]
    by_cases hn : n = n'
    · rw [if_pos hn, if_pos hn]
    · rw [if_neg hn, if_neg hn]
      rw [dget, if_neg hn] at h
      exact ih h

theorem dget_append_right (d1 d2 : Disk) (n : Nat)
    (h : dget d1 n = none) : dget (d1 ++ d2) n = dget d2 n := by
  induction d1 with
  | nil => simp [dget]
  | cons p rest ih =>
    obtain ⟨n', v'⟩ := p
    rw [dget] at h
    by_cases hn : n = n'
    · rw [if_pos hn] at h
      simp at h
    · rw [if_neg hn] at h
      rw [List.cons_append, dget, if_neg hn]
      exact ih h

theorem dget_isSome_iff_mem (d : Disk) (n : Nat) :
    (dget d n).isSome ↔ n ∈ d.map Prod.fst := by
  induction d with
  | nil => simp [dget]
  | cons p rest ih =>
    obtain ⟨n', v'⟩ := p
    rw [dget]
    by_cases h : n = n'
    · rw [if_pos h]
      simp [h]
    · rw [if_neg h]
      simp [h, ih]

theorem dget_map_readers (rs : Readers) (n : Nat) :
    dget (rs.map (fun p => (p.1, p.2.data))) n = (rget rs n).map Rdr.data := by
  induction rs with
  | nil => simp [dget, rget]
  | cons p rest ih =>
    obtain ⟨n', r'⟩ := p
    rw [List.map_cons, dget, rget]
    by_cases h : n = n'
    · rw [if_pos h, if_pos h]
      rfl
    · rw [if_neg h, if_neg h]
      exact ih

theorem mem_of_idxGet {m : Index} {k : String} {md : CommandMedaData}
    (h : idxGet m k = some md) : (k, md) ∈ m := by
  induction m with
  | nil => simp [idxGet] at h
  | cons p rest ih =>
    obtain ⟨k', v'⟩ := p
    rw [idxGet] at h
    by_cases hk : k = k'
    · rw [if_pos hk] at h
      simp only [Option.some.injEq] at h
      rw [hk, h]
      exact List.mem_cons_self _ _
    · rw [if_neg hk] at h
      exact List.mem_cons_of_mem _ (ih h)

theorem idxGet_of_mem_nodup {m : Index} {k : String} {md : CommandMedaData}
    (hmem : (k, md) ∈ m) (hnd : (m.map Prod.fst).Nodup) :
    idxGet m k = some md := by
  induction m with
  | nil => simp at hmem
  | cons p rest ih =>
    obtain ⟨k', v'⟩ := p
    simp only [List.map_cons, List.nodup_cons] at hnd
    rw [idxGet]
    rcases List.mem_cons.mp hmem with heq | hmem'
    · obtain ⟨rfl, rfl⟩ := Prod.mk.injEq .. |>.mp heq
      rw [if_pos rfl]
    · by_cases hk : k = k'
      · exfalso
        apply hnd.1
        rw [← hk]
        exact List.mem_map_of_mem Prod.fst hmem'
      · rw [if_neg hk]
        exact ih hmem' hnd.2

theorem idxInsert_mem_cases {m : Index} {k : String} {v : CommandMedaData}
    {p : String × CommandMedaData} (h : p ∈ idxInsert m k v) :
    p = (k, v) ∨ p ∈ m := by
  induction m with
  | nil => simpa [idxInsert] using h
  | cons q rest ih =>
    obtain ⟨k', v'⟩ := q
    rw [idxInsert] at h
    by_cases hlt : strLt k k' = true
    · rw [if_pos hlt] at h
      rcases List.mem_cons.mp h with h1 | h1
      · exact Or.inl h1
      · exact Or.inr h1
    · rw [if_neg hlt] at h
      by_cases heq : k = k'
      · rw [if_pos heq] at h
        rcases List.mem_cons.mp h with h1 | h1
        · exact Or.inl h1
        · exact Or.inr (List.mem_cons_of_mem _ h1)
      · rw [if_neg heq] at h
        rcases List.mem_cons.mp h with h1 | h1
        · exact Or.inr (h1 ▸ List.mem_cons_self _ _)
        · rcases ih h1 with h2 | h2
          · exact Or.inl h2
          · exact Or.inr (List.mem_cons_of_mem _ h2)

theorem idxRemove_mem {m : Index} {k : String}
    {p : String × CommandMedaData} (h : p ∈ idxRemove m k) : p ∈ m :=
  (idxRemove_sublist m k).mem h

theorem slice_append_of_le (d e : List Char) (off len : Nat)
    (h : off + len ≤ d.length) :
    ((d ++ e).drop off).take len = (d.drop off).take len := by
  rw [List.drop_append_of_le_length (by omega)]
  rw [List.take_append_of_le_length (by simp; omega)]

/-! ### The copy loop of `compact` -/

theorem readData_congr_pt {rs1 rs2 : Readers} {md : CommandMedaData}
    (h : (rget rs1 md.file_number).map Rdr.data =
      (rget rs2 md.file_number).map Rdr.data) :
    readData rs1 md = readData rs2 md := by
  rw [readData, readData]
  cases h1 : rget rs1 md.file_number with
  | none =>
    cases h2 : rget rs2 md.file_number with
    | none => rfl
    | some r2 => rw [h1, h2] at h; simp at h
  | some r1 =>
    cases h2 : rget rs2 md.file_number with
    | none => rw [h1, h2] at h; simp at h
    | some r2 =>
      rw [h1, h2] at h
      simp only [Option.map_some', Option.some.injEq] at h
      simp [h]

theorem readData_congr {rs1 rs2 : Readers} (h : SameData rs1 rs2)
    (md : CommandMedaData) : readData rs1 md = readData rs2 md :=
  readData_congr_pt (h md.file_number)

theorem sameData_isSome {rs1 rs2 : Readers} (h : SameData rs1 rs2)
    (n : Nat) : (rget rs1 n).isSome = (rget rs2 n).isSome := by
  have hn := h n
  cases h1 : rget rs1 n with
  | none =>
    cases h2 : rget rs2 n with
    | none => rfl
    | some r2 => rw [h1, h2] at hn; simp at hn
  | some r1 =>
    cases h2 : rget rs2 n with
    | none => rw [h1, h2] at hn; simp at hn
    | some r2 => rfl

theorem slicesOf_congr_on {rs1 rs2 : Readers} :
    ∀ {entries : Index},
    (∀ p ∈ entries, readData rs1 p.2 = readData rs2 p.2) →
    slicesOf rs1 entries = slicesOf rs2 entries := by
  intro entries
  induction entries with
  | nil => intro _; rfl
  | cons p rest ih =>
    intro h
    obtain ⟨k, md⟩ := p
    rw [slicesOf, slicesOf]
    rw [h (k, md) (List.mem_cons_self _ _),
      ih (fun q hq => h q (List.mem_cons_of_mem _ hq))]

theorem reassign_congr_on {rs1 rs2 : Readers} (cnum : Nat) :
    ∀ {entries : Index} (off : Nat),
    (∀ p ∈ entries, readData rs1 p.2 = readData rs2 p.2) →
    reassign rs1 cnum entries off = reassign rs2 cnum entries off := by
  intro entries
  induction entries with
  | nil => intro off _; rfl
  | cons p rest ih =>
    intro off h
    obtain ⟨k, md⟩ := p
    rw [reassign, reassign]
    rw [h (k, md) (List.mem_cons_self _ _),
      ih _ (fun q hq => h q (List.mem_cons_of_mem _ hq))]

theorem compactLoop_spec :
    ∀ (entries : Index) (rs : Readers) (cnum off : Nat) (acc : List Char),
    (∀ p ∈ entries, (rget rs p.2.file_number).isSome) →
    ∃ rs2, compactLoop entries rs cnum off acc =
      some (reassign rs cnum entries off, acc ++ slicesOf rs entries, rs2) ∧
      SameData rs2 rs ∧ rs2.map Prod.fst = rs.map Prod.fst := by
  intro entries
  induction entries with
  | nil =>
    intro rs cnum off acc _
    exact ⟨rs, by simp [compactLoop, reassign, slicesOf],
      sameData_refl rs, rfl⟩
  | cons p rest ih =>
    intro rs cnum off acc hc
    obtain ⟨k, md⟩ := p
    cases hr : rget rs md.file_number with
    | none =>
      have h1 := hc (k, md) (List.mem_cons_self _ _)
      rw [hr] at h1
      simp at h1
    | some r =>
      have hsd : SameData (rset rs md.file_number
          ⟨r.data, md.offset + ((r.data.drop md.offset).take md.length).length⟩)
          rs := sameData_rset_pos _ _ _ _ hr
      have hc2 : ∀ p ∈ rest,
          (rget (rset rs md.file_number
            ⟨r.data,
              md.offset + ((r.data.drop md.offset).take md.length).length⟩)
            p.2.file_number).isSome := by
        intro q hq
        rw [sameData_isSome hsd]
        exact hc q (List.mem_cons_of_mem _ hq)
      obtain ⟨rs2, hcl, hsd2, hk2⟩ := ih _ cnum
        (off + ((r.data.drop md.offset).take md.length).length)
        (acc ++ (r.data.drop md.offset).take md.length) hc2
      refine ⟨rs2, ?_, sameData_trans hsd2 hsd, ?_⟩
      · rw [compactLoop, hr]
        simp only []
        rw [hcl]
        have hread : ∀ q ∈ rest,
            readData (rset rs md.file_number
              ⟨r.data,
                md.offset + ((r.data.drop md.offset).take md.length).length⟩)
              q.2 = readData rs q.2 :=
          fun q _ => readData_congr hsd q.2
        rw [reassign_congr_on _ _ hread, slicesOf_congr_on hread]
        rw [reassign, slicesOf, readData, hr]
        simp [Nat.add_sub_cancel_left]
      · rw [hk2]
        exact map_fst_rset_present rs md.file_number _ (by simp [hr])

theorem reassign_get (rs : Readers) (cnum : Nat) :
    ∀ (entries : Index) (off : Nat) (k : String),
    (idxGet entries k = none →
      idxGet (reassign rs cnum entries off) k = none) ∧
    (∀ md, idxGet entries k = some md →
      ∃ o, idxGet (reassign rs cnum entries off) k =
          some ⟨cnum, o, ((readData rs md).getD []).length⟩ ∧
        off ≤ o ∧
        (o - off) + ((readData rs md).getD []).length ≤
          (slicesOf rs entries).length ∧
        ((slicesOf rs entries).drop (o - off)).take
            ((readData rs md).getD []).length = (readData rs md).getD []) := by
  intro entries
  induction entries with
  | nil =>
    intro off k
    exact ⟨fun _ => rfl, fun md h => by simp [idxGet] at h⟩
  | cons p rest ih =>
    intro off k
    obtain ⟨k0, md0⟩ := p
    constructor
    · intro hnone
      rw [idxGet] at hnone
      by_cases hk : k = k0
      · rw [if_pos hk] at hnone
        simp at hnone
      · rw [if_neg hk] at hnone
        rw [reassign, idxGet, if_neg hk]
        exact (ih _ k).1 hnone
    · intro md hsome
      rw [idxGet] at hsome
      by_cases hk : k = k0
      · rw [if_pos hk] at hsome
        simp only [Option.some.injEq] at hsome
        subst hsome
        refine ⟨off, ?_, le_refl _, ?_, ?_⟩
        · rw [reassign, idxGet, if_pos hk]
        · rw [slicesOf, List.length_append, Nat.sub_self]
          omega
        · rw [slicesOf, Nat.sub_self, List.drop_zero]
          exact List.take_left' rfl
      · rw [if_neg hk] at hsome
        obtain ⟨o, h1, h2, h3, h4⟩ :=
          (ih (off + ((readData rs md0).getD []).length) k).2 md hsome
        refine ⟨o, ?_, by omega, ?_, ?_⟩
        · rw [reassign, idxGet, if_neg hk]
          exact h1
        · rw [slicesOf, List.length_append]
          omega
        · rw [slicesOf]
          have hsplit : o - off =
              ((readData rs md0).getD []).length +
                (o - (off + ((readData rs md0).getD []).length)) := by
            omega
          rw [hsplit, List.drop_append]
          exact h4

/-! ### Specification of `compact` -/

theorem rget_eq_none_of_not_mem {rs : Readers} {n : Nat}
    (h : n ∉ rs.map Prod.fst) : rget rs n = none := by
  cases hg : rget rs n with
  | none => rfl
  | some r =>
    exact absurd ((rget_isSome_iff_mem rs n).mp (by simp [hg])) h

theorem split_last_of_keys :
    ∀ {rs : Readers} {ks : List Nat} {c : Nat},
    rs.map Prod.fst = ks ++ [c] →
    ∃ init e, rs = init ++ [(c, e)] ∧ init.map Prod.fst = ks := by
  intro rs
  induction rs with
  | nil =>
    intro ks c h
    simp at h
  | cons p rest ih =>
    obtain ⟨n, r⟩ := p
    intro ks c h
    rw [List.map_cons] at h
    cases ks with
    | nil =>
      simp only [List.nil_append, List.cons.injEq] at h
      obtain ⟨rfl, h2⟩ := h
      have : rest = [] := List.map_eq_nil_iff.mp h2
      exact ⟨[], r, by rw [this]; rfl, rfl⟩
    | cons a ks2 =>
      simp only [List.cons_append, List.cons.injEq] at h
      obtain ⟨rfl, h2⟩ := h
      obtain ⟨init, e, h3, h4⟩ := ih h2
      exact ⟨(n, r) :: init, e, by rw [h3]; rfl, by simp [h4]⟩

theorem rset_append_fresh (init : Readers) (c : Nat) (e r : Rdr)
    (h : rget init c = none) :
    rset (init ++ [(c, e)]) c r = init ++ [(c, r)] := by
  induction init with
  | nil => simp [rset]
  | cons p rest ih =>
    obtain ⟨n, r'⟩ := p
    rw [rget] at h
    by_cases hn : c = n
    · rw [if_pos hn] at h
      simp at h
    · rw [if_neg hn] at h
      rw [List.cons_append, rset, if_neg hn, ih h]
      rfl

theorem compactOp_spec (s : KVStore)
    (hP : ∀ p ∈ s.index_map, (rget s.readers p.2.file_number).isSome ∧
      p.2.file_number ≤ s.current_file_number)
    (hkeys : ∀ n ∈ s.readers.map Prod.fst, n ≤ s.current_file_number) :
    ∃ pos1, compactOp s = .ok ()
      ⟨s.current_file_number + 2,
        [(s.current_file_number + 1,
            ⟨slicesOf s.readers s.index_map, pos1⟩),
          (s.current_file_number + 2, ⟨[], 0⟩)],
        reassign s.readers (s.current_file_number + 1) s.index_map 0, 0⟩ ∧
      ∀ k, specGet
        ⟨s.current_file_number + 2,
          [(s.current_file_number + 1,
              ⟨slicesOf s.readers s.index_map, pos1⟩),
            (s.current_file_number + 2, ⟨[], 0⟩)],
          reassign s.readers (s.current_file_number + 1) s.index_map 0, 0⟩
        k = specGet s k := by
  have hcnum : rget s.readers (s.current_file_number + 1) = none := by
    apply rget_eq_none_of_not_mem
    intro hmem
    have := hkeys _ hmem
    omega
  have hrs1 : newFileReaders s.readers (s.current_file_number + 1) =
      s.readers ++ [(s.current_file_number + 1, ⟨[], 0⟩)] := by
    rw [newFileReaders, hcnum]
  have hreadAgree : ∀ p ∈ s.index_map,
      readData (s.readers ++ [(s.current_file_number + 1, ⟨[], 0⟩)]) p.2 =
        readData s.readers p.2 := by
    intro p hp
    apply readData_congr_pt
    rw [rget_append_left _ _ _ (hP p hp).1]
  have hc : ∀ p ∈ s.index_map,
      (rget (s.readers ++ [(s.current_file_number + 1, ⟨[], 0⟩)])
        p.2.file_number).isSome := by
    intro p hp
    rw [rget_append_left _ _ _ (hP p hp).1]
    exact (hP p hp).1
  obtain ⟨rs2, hcl, hsd2, hk2⟩ := compactLoop_spec s.index_map
    (s.readers ++ [(s.current_file_number + 1, ⟨[], 0⟩)])
    (s.current_file_number + 1) 0 [] hc
  rw [reassign_congr_on _ _ hreadAgree, slicesOf_congr_on hreadAgree,
    List.nil_append] at hcl
  have hk2' : rs2.map Prod.fst =
      s.readers.map Prod.fst ++ [s.current_file_number + 1] := by
    rw [hk2]
    simp
  obtain ⟨init2, e2, hsplit2, hinit2⟩ := split_last_of_keys hk2'
  have hinitc : rget init2 (s.current_file_number + 1) = none := by
    apply rget_eq_none_of_not_mem
    rw [hinit2]
    intro hmem
    have := hkeys _ hmem
    omega
  have hrget2 : rget rs2 (s.current_file_number + 1) = some e2 := by
    rw [hsplit2, rget_append_right _ _ _ hinitc, rget_singleton, if_pos rfl]
  refine ⟨e2.pos, ?_, ?_⟩
  · rw [compactOp]
    simp only [hrs1]
    rw [hcl]
    simp only [hrget2]
    have hset2 : rset rs2 (s.current_file_number + 1)
        ⟨slicesOf s.readers s.index_map, e2.pos⟩ =
        init2 ++ [(s.current_file_number + 1,
          ⟨slicesOf s.readers s.index_map, e2.pos⟩)] := by
      rw [hsplit2, rset_append_fresh _ _ _ _ hinitc]
    rw [hset2]
    rw [List.filter_append]
    have hfinit : init2.filter
        (fun p => ! decide (p.1 < s.current_file_number + 1)) = [] := by
      rw [List.filter_eq_nil_iff]
      intro a ha
      have hmem : a.1 ∈ init2.map Prod.fst := List.mem_map_of_mem Prod.fst ha
      rw [hinit2] at hmem
      have := hkeys _ hmem
      simp
      omega
    rw [hfinit]
    rw [List.filter_cons_of_pos (by simp), List.filter_nil, List.nil_append]
    rw [newFileReaders]
    have hlast : rget [(s.current_file_number + 1,
        (⟨slicesOf s.readers s.index_map, e2.pos⟩ : Rdr))]
        (s.current_file_number + 1 + 1) = none := by
      rw [rget_singleton, if_neg (by omega)]
    rw [hlast]
    rfl
  · intro k
    rw [specGet, specGet]
    simp only []
    cases hk : idxGet s.index_map k with
    | none =>
      rw [(reassign_get s.readers (s.current_file_number + 1)
        s.index_map 0 k).1 hk]
    | some md =>
      obtain ⟨o, h1, _, h3, h4⟩ :=
        (reassign_get s.readers (s.current_file_number + 1)
          s.index_map 0 k).2 md hk
      rw [h1]
      obtain ⟨r0, hr0⟩ := Option.isSome_iff_exists.mp
        (hP _ (mem_of_idxGet hk)).1
      have hbytes : readData s.readers md =
          some ((r0.data.drop md.offset).take md.length) := by
        rw [readData, hr0]
        rfl
      rw [Nat.sub_zero] at h4
      rw [hbytes] at h4 ⊢
      simp only [Option.getD_some] at h4 ⊢
      have hrd : readData
          [(s.current_file_number + 1,
              ⟨slicesOf s.readers s.index_map, e2.pos⟩),
            (s.current_file_number + 2, ⟨[], 0⟩)]
          ⟨s.current_file_number + 1, o,
            ((r0.data.drop md.offset).take md.length).length⟩ =
          some (((slicesOf s.readers s.index_map).drop o).take
            ((r0.data.drop md.offset).take md.length).length) := by
        rw [readData, rget, if_pos rfl]
        rfl
      rw [hbytes] at h1
      simp only [Option.getD_some] at h1
      rw [hrd, h4, hbytes]

/-! ### Unfolding equations and composition lemmas for replay -/

theorem load_nil (fn off : Nat) (idx : Index) :
    load fn [] off idx = .ok (idx, 0) := by
  rw [load]
  simp

theorem load_step (fn : Nat) (c : Command) (bs : List Char) (off : Nat)
    (idx : Index) :
    load fn (encode c ++ bs) off idx =
      match c with
      | .Set k _ =>
        match load fn bs (off + (encode c).length)
            (idxInsert idx k ⟨fn, off, (encode c).length⟩) with
        | .error e => .error e
        | .ok (idx2, st) =>
          .ok (idx2, ((idxGet idx k).map CommandMedaData.length).getD 0 + st)
      | .Remove k =>
        match load fn bs (off + (encode c).length) (idxRemove idx k) with
        | .error e => .error e
        | .ok (idx2, st) =>
          .ok (idx2, (((idxGet idx k).map CommandMedaData.length).getD 0 +
            (encode c).length) + st) := by
  have hpos := encode_pos c
  have hne : encode c ++ bs ≠ [] := by
    intro h
    rw [List.append_eq_nil] at h
    rw [h.1] at hpos
    simp at hpos
  rw [load, if_neg hne]
  split
  · rename_i heq
    rw [decodeOne_enc] at heq
    simp at heq
  · rename_i c1 rest heq
    rw [decodeOne_enc] at heq
    simp only [Option.some.injEq, Prod.mk.injEq] at heq
    obtain ⟨rfl, rfl⟩ := heq
    simp only [List.length_append, Nat.add_sub_cancel, Nat.add_sub_cancel_left]
    cases c with
    | Set k v => rfl
    | Remove k => rfl

theorem load_step_set (fn : Nat) (k v : String) (bs : List Char)
    (off : Nat) (idx : Index) :
    load fn (encode (Command.Set k v) ++ bs) off idx =
      match load fn bs (off + (encode (Command.Set k v)).length)
          (idxInsert idx k ⟨fn, off, (encode (Command.Set k v)).length⟩) with
      | .error e => .error e
      | .ok (idx2, st) =>
        .ok (idx2, ((idxGet idx k).map CommandMedaData.length).getD 0 + st) :=
  load_step fn (Command.Set k v) bs off idx

theorem load_step_rm (fn : Nat) (k : String) (bs : List Char)
    (off : Nat) (idx : Index) :
    load fn (encode (Command.Remove k) ++ bs) off idx =
      match load fn bs (off + (encode (Command.Remove k)).length)
          (idxRemove idx k) with
      | .error e => .error e
      | .ok (idx2, st) =>
        .ok (idx2, (((idxGet idx k).map CommandMedaData.length).getD 0 +
          (encode (Command.Remove k)).length) + st) :=
  load_step fn (Command.Remove k) bs off idx

theorem load_single (fn : Nat) (c : Command) (off : Nat) (idx : Index) :
    ∃ u2, load fn (encode c) off idx = .ok (applyRec fn off c idx, u2) := by
  cases c with
  | Set k v =>
    refine ⟨((idxGet idx k).map CommandMedaData.length).getD 0 + 0, ?_⟩
    have h := load_step_set fn k v [] off idx
    rw [List.append_nil] at h
    rw [h, load_nil]
    rfl
  | Remove k =>
    refine ⟨(((idxGet idx k).map CommandMedaData.length).getD 0 +
      (encode (Command.Remove k)).length) + 0, ?_⟩
    have h := load_step_rm fn k [] off idx
    rw [List.append_nil] at h
    rw [h, load_nil]
    rfl

theorem load_append_one (fn : Nat) (c : Command) :
    ∀ (n : Nat) (bs : List Char), bs.length ≤ n →
    ∀ (off : Nat) (idx idx1 : Index) (u : Nat),
    load fn bs off idx = .ok (idx1, u) →
    ∃ u2, load fn (bs ++ encode c) off idx =
      .ok (applyRec fn (off + bs.length) c idx1, u2) := by
  intro n
  induction n with
  | zero =>
    intro bs hbs off idx idx1 u h
    have hemp : bs = [] := List.eq_nil_of_length_eq_zero (Nat.le_zero.mp hbs)
    subst hemp
    rw [load_nil] at h
    simp only [Except.ok.injEq, Prod.mk.injEq] at h
    obtain ⟨rfl, -⟩ := h
    obtain ⟨u2, hu⟩ := load_single fn c off idx
    rw [List.nil_append, hu]
    exact ⟨u2, by simp⟩
  | succ m ih =>
    intro bs hbs off idx idx1 u h
    by_cases hemp : bs = []
    · subst hemp
      rw [load_nil] at h
      simp only [Except.ok.injEq, Prod.mk.injEq] at h
      obtain ⟨rfl, -⟩ := h
      obtain ⟨u2, hu⟩ := load_single fn c off idx
      rw [List.nil_append, hu]
      exact ⟨u2, by simp⟩
    · cases hdec : decodeOne bs with
      | none =>
        exfalso
        rw [load, if_neg hemp] at h
        split at h
        · simp at h
        · rename_i c1 rest heq
          rw [hdec] at heq
          simp at heq
      | some pr =>
        obtain ⟨c1, rest⟩ := pr
        have hbs_eq := decodeOne_sound hdec
        subst hbs_eq
        have hrest : rest.length ≤ m := by
          have hlt := decodeOne_lt hdec
          rw [List.length_append] at hbs
          have := encode_pos c1
          omega
        rw [List.append_assoc]
        cases c1 with
        | Set k v =>
          rw [load_step_set] at h
          rw [load_step_set]
          cases hl : load fn rest (off + (encode (Command.Set k v)).length)
              (idxInsert idx k
                ⟨fn, off, (encode (Command.Set k v)).length⟩) with
          | error e => rw [hl] at h; simp at h
          | ok p =>
            obtain ⟨idxm, um⟩ := p
            rw [hl] at h
            simp only [Except.ok.injEq, Prod.mk.injEq] at h
            obtain ⟨rfl, -⟩ := h
            obtain ⟨u2, hrec⟩ := ih rest hrest _ _ _ _ hl
            refine ⟨(Option.map CommandMedaData.length (idxGet idx k)).getD 0 +
              u2, ?_⟩
            rw [hrec, List.length_append, ← Nat.add_assoc]
        | Remove k =>
          rw [load_step_rm] at h
          rw [load_step_rm]
          cases hl : load fn rest (off + (encode (Command.Remove k)).length)
              (idxRemove idx k) with
          | error e => rw [hl] at h; simp at h
          | ok p =>
            obtain ⟨idxm, um⟩ := p
            rw [hl] at h
            simp only [Except.ok.injEq, Prod.mk.injEq] at h
            obtain ⟨rfl, -⟩ := h
            obtain ⟨u2, hrec⟩ := ih rest hrest _ _ _ _ hl
            refine ⟨((Option.map CommandMedaData.length (idxGet idx k)).getD 0 +
              (encode (Command.Remove k)).length) + u2, ?_⟩
            rw [hrec, List.length_append, ← Nat.add_assoc]

theorem loadAll_congr_disk {disk1 disk2 : Disk} :
    ∀ (nums : List Nat) (idx : Index),
    (∀ n ∈ nums, dget disk1 n = dget disk2 n) →
    loadAll nums disk1 idx = loadAll nums disk2 idx := by
  intro nums
  induction nums with
  | nil => intro idx _; rfl
  | cons n rest ih =>
    intro idx h
    rw [loadAll, loadAll, h n (List.mem_cons_self _ _)]
    cases hd : dget disk2 n with
    | none => simp only [hd]
    | some d =>
      simp only [hd]
      cases hl : load n d 0 idx with
      | error e => simp only [hl]
      | ok p =>
        obtain ⟨idx1, st1⟩ := p
        simp only [hl]
        rw [ih idx1 (fun q hq => h q (List.mem_cons_of_mem _ hq))]

theorem loadAll_append_ok {disk : Disk} :
    ∀ {ns : List Nat} {ms : List Nat} {idx i1 i2 : Index} {u1 u2 : Nat},
    loadAll ns disk idx = .ok (i1, u1) →
    loadAll ms disk i1 = .ok (i2, u2) →
    loadAll (ns ++ ms) disk idx = .ok (i2, u1 + u2) := by
  intro ns
  induction ns with
  | nil =>
    intro ms idx i1 i2 u1 u2 h1 h2
    rw [loadAll] at h1
    simp only [Except.ok.injEq, Prod.mk.injEq] at h1
    obtain ⟨rfl, rfl⟩ := h1
    rw [List.nil_append, h2, Nat.zero_add]
  | cons n rest ih =>
    intro ms idx i1 i2 u1 u2 h1 h2
    rw [loadAll] at h1
    rw [List.cons_append, loadAll]
    cases hd : dget disk n with
    | none => simp only [hd] at h1; simp at h1
    | some d =>
      simp only [hd] at h1 ⊢
      cases hl : load n d 0 idx with
      | error e => simp only [hl] at h1; simp at h1
      | ok p =>
        obtain ⟨idxa, sta⟩ := p
        simp only [hl] at h1 ⊢
        cases hrest : loadAll rest disk idxa with
        | error e => simp only [hrest] at h1; simp at h1
        | ok q =>
          obtain ⟨idxb, stb⟩ := q
          simp only [hrest] at h1
          simp only [Except.ok.injEq, Prod.mk.injEq] at h1
          obtain ⟨rfl, rfl⟩ := h1
          rw [ih hrest h2]
          simp only [Except.ok.injEq, Prod.mk.injEq, true_and]
          omega

theorem loadAll_append_inv {disk : Disk} :
    ∀ {ns : List Nat} {ms : List Nat} {idx i2 : Index} {u : Nat},
    loadAll (ns ++ ms) disk idx = .ok (i2, u) →
    ∃ i1 u1 u2, loadAll ns disk idx = .ok (i1, u1) ∧
      loadAll ms disk i1 = .ok (i2, u2) ∧ u = u1 + u2 := by
  intro ns
  induction ns with
  | nil =>
    intro ms idx i2 u h
    rw [List.nil_append] at h
    exact ⟨idx, 0, u, rfl, h, by omega⟩
  | cons n rest ih =>
    intro ms idx i2 u h
    rw [List.cons_append, loadAll] at h
    cases hd : dget disk n with
    | none => simp only [hd] at h; simp at h
    | some d =>
      simp only [hd] at h
      cases hl : load n d 0 idx with
      | error e => simp only [hl] at h; simp at h
      | ok p =>
        obtain ⟨idxa, sta⟩ := p
        simp only [hl] at h
        cases hrest : loadAll (rest ++ ms) disk idxa with
        | error e => simp only [hrest] at h; simp at h
        | ok q =>
          obtain ⟨idxb, stb⟩ := q
          simp only [hrest] at h
          simp only [Except.ok.injEq, Prod.mk.injEq] at h
          obtain ⟨rfl, rfl⟩ := h
          obtain ⟨i1, u1, u2, hA, hB, hC⟩ := ih hrest
          refine ⟨i1, sta + u1, u2, ?_, hB, by omega⟩
          rw [loadAll]
          simp only [hd, hl, hA]

theorem loadAll_singleton_inv {disk : Disk} {n : Nat} {idx i2 : Index}
    {u : Nat} (h : loadAll [n] disk idx = .ok (i2, u)) :
    ∃ d u2, dget disk n = some d ∧ load n d 0 idx = .ok (i2, u2) := by
  rw [loadAll] at h
  cases hd : dget disk n with
  | none => simp only [hd] at h; simp at h
  | some d =>
    simp only [hd] at h
    cases hl : load n d 0 idx with
    | error e => simp only [hl] at h; simp at h
    | ok p =>
      obtain ⟨ia, ua⟩ := p
      simp only [hl, loadAll] at h
      simp only [Except.ok.injEq, Prod.mk.injEq] at h
      exact ⟨d, ua, rfl, by rw [hl, h.1]⟩

theorem loadAll_singleton {disk : Disk} {n : Nat} {idx i2 : Index}
    {u : Nat} {d : List Char} (hd : dget disk n = some d)
    (hl : load n d 0 idx = .ok (i2, u)) :
    loadAll [n] disk idx = .ok (i2, u + 0) := by
  rw [loadAll]
  simp only [hd, hl, loadAll]

/-! ### Consequences of the invariant -/

theorem inv_entriesOk {s : KVStore} (h : Inv s) :
    ∀ p ∈ s.index_map, (rget s.readers p.2.file_number).isSome ∧
      p.2.file_number ≤ s.current_file_number := by
  intro p hp
  obtain ⟨hkeys, hlast, hidx, hvalid, hrep⟩ := h
  obtain ⟨r, w, hr, _, _, _⟩ := hvalid p hp
  refine ⟨by simp [hr], ?_⟩
  have hmem : p.2.file_number ∈ s.readers.map Prod.fst :=
    (rget_isSome_iff_mem _ _).mp (by simp [hr])
  exact le_getLast_of_pairwise hkeys hlast _ hmem

theorem inv_keys_le {s : KVStore} (h : Inv s) :
    ∀ n ∈ s.readers.map Prod.fst, n ≤ s.current_file_number :=
  le_getLast_of_pairwise h.1 h.2.1

theorem inv_split_last {s : KVStore} (h : Inv s) :
    ∃ init rl, s.readers = init ++ [(s.current_file_number, rl)] ∧
      init.map Prod.fst ++ [s.current_file_number] =
        s.readers.map Prod.fst ∧
      rget init s.current_file_number = none ∧
      rget s.readers s.current_file_number = some rl := by
  obtain ⟨ks, hks⟩ := List.getLast?_eq_some_iff.mp h.2.1
  obtain ⟨init, rl, hsplit, hinit⟩ := split_last_of_keys hks
  have hnotmem : s.current_file_number ∉ init.map Prod.fst := by
    intro hmem
    have hkeys := h.1
    rw [hsplit, List.map_append, List.pairwise_append] at hkeys
    have := hkeys.2.2 _ hmem (s.current_file_number) (by simp)
    omega
  have hnone : rget init s.current_file_number = none :=
    rget_eq_none_of_not_mem hnotmem
  refine ⟨init, rl, hsplit, by rw [hsplit]; simp, hnone, ?_⟩
  rw [hsplit, rget_append_right _ _ _ hnone, rget_singleton, if_pos rfl]

theorem diskOf_rset_pos (rs : Readers) (n : Nat) (r : Rdr) (p : Nat)
    (h : rget rs n = some r) :
    (rset rs n ⟨r.data, p⟩).map (fun q => (q.1, q.2.data)) =
      rs.map (fun q => (q.1, q.2.data)) := by
  induction rs with
  | nil => simp [rget] at h
  | cons q rest ih =>
    obtain ⟨n', r'⟩ := q
    rw [rget] at h
    rw [rset]
    by_cases hn : n = n'
    · rw [if_pos hn] at *
      simp only [Option.some.injEq] at h
      simp [hn, h]
    · rw [if_neg hn] at *
      simp [ih h]

theorem sameData_of_diskEq {rs1 rs2 : Readers}
    (h : rs1.map (fun q => (q.1, q.2.data)) =
      rs2.map (fun q => (q.1, q.2.data))) : SameData rs1 rs2 := by
  intro n
  rw [← dget_map_readers, ← dget_map_readers, h]

theorem validEntry_congr {rs1 rs2 : Readers} {k : String}
    {md : CommandMedaData} (h : SameData rs1 rs2)
    (hv : ValidEntry rs2 k md) : ValidEntry rs1 k md := by
  obtain ⟨r, w, hr, hlen, hbound, hslice⟩ := hv
  have hd := h md.file_number
  rw [hr] at hd
  cases h1 : rget rs1 md.file_number with
  | none => rw [h1] at hd; simp at hd
  | some r1 =>
    rw [h1] at hd
    simp only [Option.map_some', Option.some.injEq] at hd
    exact ⟨r1, w, h1, hlen, by rw [hd]; exact hbound, by rw [hd]; exact hslice⟩

theorem reassign_keys (rs : Readers) (cnum : Nat) :
    ∀ (entries : Index) (off : Nat),
    (reassign rs cnum entries off).map Prod.fst = entries.map Prod.fst := by
  intro entries
  induction entries with
  | nil => intro off; rfl
  | cons p rest ih =>
    intro off
    obtain ⟨k, md⟩ := p
    rw [reassign]
    simp [ih]

theorem pairwise_fst_of_keys_eq {l1 l2 : Index}
    (hk : l1.map Prod.fst = l2.map Prod.fst)
    (h : l2.Pairwise (fun a b => strLt a.1 b.1 = true)) :
    l1.Pairwise (fun a b => strLt a.1 b.1 = true) := by
  have h2 : (l2.map Prod.fst).Pairwise (fun a b => strLt a b = true) :=
    List.pairwise_map.mpr h
  rw [← hk] at h2
  exact List.pairwise_map.mp h2

theorem strLt_asymm {a b : String} (h : strLt a b = true) :
    strLt b a = false := by
  cases hba : strLt b a
  · rfl
  · have := strLt_trans h hba
    rw [strLt_irrefl] at this
    exact absurd this (by simp)

theorem idxGet_none_of_all_lt {idx0 : Index} {k : String}
    (h : ∀ p ∈ idx0, strLt p.1 k = true) : idxGet idx0 k = none := by
  induction idx0 with
  | nil => rfl
  | cons p rest ih =>
    obtain ⟨k0, v0⟩ := p
    rw [idxGet]
    have hk0 := h (k0, v0) (List.mem_cons_self _ _)
    rw [if_neg (fun he => strLt_ne hk0 he.symm)]
    exact ih (fun q hq => h q (List.mem_cons_of_mem _ hq))

theorem idxInsert_append_of_lt {idx0 : Index} {k : String}
    {v : CommandMedaData} (h : ∀ p ∈ idx0, strLt p.1 k = true) :
    idxInsert idx0 k v = idx0 ++ [(k, v)] := by
  induction idx0 with
  | nil => rfl
  | cons p rest ih =>
    obtain ⟨k0, v0⟩ := p
    have hk0 := h (k0, v0) (List.mem_cons_self _ _)
    rw [idxInsert]
    rw [if_neg (by rw [strLt_asymm hk0]; simp)]
    rw [if_neg (fun he => strLt_ne hk0 he.symm)]
    rw [ih (fun q hq => h q (List.mem_cons_of_mem _ hq))]
    rfl

theorem specGet_congr_idx {s1 s2 : KVStore} (k : String)
    (hidx : s1.index_map = s2.index_map)
    (hrd : ∀ md, idxGet s2.index_map k = some md →
      readData s1.readers md = readData s2.readers md) :
    specGet s1 k = specGet s2 k := by
  rw [specGet, specGet, hidx]
  cases h : idxGet s2.index_map k with
  | none => rfl
  | some md => simp only [hrd md h]

theorem rget_map_rdr (rs : Readers) (f : Rdr → Rdr) (n : Nat) :
    rget (rs.map (fun p => (p.1, f p.2))) n = (rget rs n).map f := by
  induction rs with
  | nil => simp [rget]
  | cons p rest ih =>
    obtain ⟨n', r'⟩ := p
    rw [List.map_cons, rget, rget]
    by_cases h : n = n'
    · rw [if_pos h, if_pos h]
      rfl
    · rw [if_neg h, if_neg h]
      exact ih

theorem validEntry_rset_append {rs : Readers} {k : String}
    {md : CommandMedaData} {n : Nat} {rl : Rdr} {bytes : List Char}
    {pos : Nat} (hn : rget rs n = some rl) (hv : ValidEntry rs k md) :
    ValidEntry (rset rs n ⟨rl.data ++ bytes, pos⟩) k md := by
  obtain ⟨r, w, hr, hlen, hbound, hslice⟩ := hv
  by_cases hf : md.file_number = n
  · rw [hf, hn] at hr
    simp only [Option.some.injEq] at hr
    subst hr
    refine ⟨⟨rl.data ++ bytes, pos⟩, w, by rw [hf, rget_rset_self], hlen, ?_, ?_⟩
    · simp only [List.length_append]
      omega
    · simp only []
      rw [slice_append_of_le _ _ _ _ hbound]
      exact hslice
  · exact ⟨r, w, by rw [rget_rset_ne _ _ _ _ hf]; exact hr,
      hlen, hbound, hslice⟩

theorem getOp_state_keys (s : KVStore) (k : String) :
    ((getOp s k).state s).readers.map Prod.fst =
      s.readers.map Prod.fst := by
  cases h : idxGet s.index_map k with
  | none => simp [getOp, h, StepRes.state]
  | some md =>
    cases hr : rget s.readers md.file_number with
    | none => simp [getOp, h, hr, StepRes.state]
    | some r =>
      cases hdec : decodeExact ((r.data.drop md.offset).take md.length) with
      | ok c =>
        cases c <;> simp only [getOp, h, hr, hdec, StepRes.state] <;>
          exact map_fst_rset_present _ _ _ (by simp [hr])
      | error e =>
        simp only [getOp, h, hr, hdec, StepRes.state]
        exact map_fst_rset_present _ _ _ (by simp [hr])

theorem inv_congr {s1 s2 : KVStore} (hinv : Inv s2)
    (hc : s1.current_file_number = s2.current_file_number)
    (hk : s1.readers.map Prod.fst = s2.readers.map Prod.fst)
    (hd : SameData s1.readers s2.readers)
    (hi : s1.index_map = s2.index_map) : Inv s1 := by
  obtain ⟨h1, h2, h3, h4, u, h5⟩ := hinv
  refine ⟨by rw [hk]; exact h1, by rw [hk, hc]; exact h2,
    by rw [hi]; exact h3, ?_, u, ?_⟩
  · intro p hp
    rw [hi] at hp
    exact validEntry_congr hd (h4 p hp)
  · rw [hk, hi]
    have hdg : ∀ n ∈ s2.readers.map Prod.fst,
        dget (diskOf s1) n = dget (diskOf s2) n := by
      intro n _
      simp only [diskOf]
      rw [dget_map_readers, dget_map_readers, hd n]
    rw [loadAll_congr_disk _ _ hdg]
    exact h5

theorem getOp_state_inv {s : KVStore} (hinv : Inv s) (k : String) :
    Inv ((getOp s k).state s) := by
  obtain ⟨hidx, hcur, _, hsd⟩ := getOp_state_eq s k
  exact inv_congr hinv hcur (getOp_state_keys s k) hsd hidx

/-- Appending one encoded record to the active segment and applying that
record to the index — the common mutation of `set` and `remove` — keeps
the invariant (for any value of the stale-byte counter, which the
invariant does not constrain). -/
theorem append_record_inv {s : KVStore} (hinv : Inv s) (c : Command)
    (u' : Nat) :
    Inv ⟨s.current_file_number,
      appendActive s.readers s.current_file_number (encode c),
      applyRec s.current_file_number (writerPos s) c s.index_map, u'⟩ := by
  obtain ⟨init, rl, hsplit, hmapeq, hinitnone, hcur⟩ := inv_split_last hinv
  have hwp : writerPos s = rl.data.length := by
    rw [writerPos, hcur]
    rfl
  have happ : appendActive s.readers s.current_file_number (encode c) =
      rset s.readers s.current_file_number ⟨rl.data ++ encode c, rl.pos⟩ := by
    rw [appendActive, hcur]
  have hkeys1 : (rset s.readers s.current_file_number
      ⟨rl.data ++ encode c, rl.pos⟩).map Prod.fst =
      s.readers.map Prod.fst :=
    map_fst_rset_present _ _ _ (by simp [hcur])
  refine ⟨?_, ?_, ?_, ?_, ?_⟩
  · simp only [happ]
    rw [hkeys1]
    exact hinv.1
  · simp only [happ]
    rw [hkeys1]
    exact hinv.2.1
  · cases c with
    | Set k v =>
      simp only [applyRec]
      exact idxInsert_pairwise _ _ _ hinv.2.2.1
    | Remove k =>
      simp only [applyRec]
      exact idxRemove_pairwise _ _ hinv.2.2.1
  · intro p hp
    simp only [happ]
    cases c with
    | Set k v =>
      simp only [applyRec] at hp
      rcases idxInsert_mem_cases hp with h1 | h1
      · subst h1
        refine ⟨⟨rl.data ++ encode (Command.Set k v), rl.pos⟩, v,
          by rw [rget_rset_self], rfl, ?_, ?_⟩
        · simp only [hwp, List.length_append]
          omega
        · simp only [hwp]
          rw [List.drop_left, List.take_length]
      · exact validEntry_rset_append hcur (hinv.2.2.2.1 p h1)
    | Remove k =>
      simp only [applyRec] at hp
      exact validEntry_rset_append hcur (hinv.2.2.2.1 p (idxRemove_mem hp))
  · obtain ⟨u, hload⟩ := hinv.2.2.2.2
    rw [← hmapeq] at hload
    obtain ⟨i1, u1, u2, hA, hB, -⟩ := loadAll_append_inv hload
    obtain ⟨d, u2', hdget, hloadcur⟩ := loadAll_singleton_inv hB
    have hdeq : d = rl.data := by
      simp only [diskOf] at hdget
      rw [dget_map_readers, hcur] at hdget
      simp only [Option.map_some', Option.some.injEq] at hdget
      exact hdget.symm
    subst hdeq
    obtain ⟨u3, hext⟩ := load_append_one s.current_file_number c
      rl.data.length rl.data (Nat.le_refl _) 0 i1 s.index_map u2' hloadcur
    rw [Nat.zero_add, ← hwp] at hext
    have hinit_lt : ∀ n ∈ init.map Prod.fst,
        n ≠ s.current_file_number := by
      have hk := hinv.1
      rw [← hmapeq, List.pairwise_append] at hk
      intro n hn
      have := hk.2.2 n hn s.current_file_number (by simp)
      omega
    simp only [happ, diskOf]
    rw [hkeys1, ← hmapeq]
    have hdg : ∀ n ∈ init.map Prod.fst,
        dget ((rset s.readers s.current_file_number
          ⟨rl.data ++ encode c, rl.pos⟩).map
            (fun p => (p.1, p.2.data))) n = dget (diskOf s) n := by
      intro n hn
      simp only [diskOf]
      rw [dget_map_readers, dget_map_readers,
        rget_rset_ne _ _ _ _ (hinit_lt n hn)]
    have hA' : loadAll (init.map Prod.fst)
        ((rset s.readers s.current_file_number
          ⟨rl.data ++ encode c, rl.pos⟩).map
            (fun p => (p.1, p.2.data))) [] = .ok (i1, u1) := by
      rw [loadAll_congr_disk _ _ hdg]
      exact hA
    have hdget1 : dget ((rset s.readers s.current_file_number
        ⟨rl.data ++ encode c, rl.pos⟩).map (fun p => (p.1, p.2.data)))
        s.current_file_number = some (rl.data ++ encode c) := by
      rw [dget_map_readers, rget_rset_self]
      rfl
    have hB' := loadAll_singleton hdget1 hext
    exact ⟨u1 + (u3 + 0), loadAll_append_ok hA' hB'⟩

/-! ### Replaying a compacted segment rebuilds the compacted index -/

theorem load_slices (cnum : Nat) (rs : Readers) :
    ∀ (entries : Index) (off : Nat) (idx0 : Index),
    (∀ p ∈ entries, ∃ w,
      readData rs p.2 = some (encode (Command.Set p.1 w))) →
    entries.Pairwise (fun a b => strLt a.1 b.1 = true) →
    (∀ p ∈ entries, ∀ q ∈ idx0, strLt q.1 p.1 = true) →
    load cnum (slicesOf rs entries) off idx0 =
      .ok (idx0 ++ reassign rs cnum entries off, 0) := by
  intro entries
  induction entries with
  | nil =>
    intro off idx0 _ _ _
    rw [slicesOf, reassign, load_nil, List.append_nil]
  | cons p rest ih =>
    intro off idx0 hval hpw hlt
    obtain ⟨k0, md0⟩ := p
    obtain ⟨w, hw⟩ := hval (k0, md0) (List.mem_cons_self _ _)
    rw [List.pairwise_cons] at hpw
    have hlt0 : ∀ q ∈ idx0, strLt q.1 k0 = true :=
      fun q hq => hlt (k0, md0) (List.mem_cons_self _ _) q hq
    have hlt2 : ∀ p ∈ rest,
        ∀ q ∈ idxInsert idx0 k0
          ⟨cnum, off, (encode (Command.Set k0 w)).length⟩,
        strLt q.1 p.1 = true := by
      intro p hp q hq
      rcases idxInsert_mem_cases hq with h1 | h1
      · rw [h1]
        exact hpw.1 p hp
      · exact hlt p (List.mem_cons_of_mem _ hp) q h1
    have hrec := ih (off + (encode (Command.Set k0 w)).length)
      (idxInsert idx0 k0 ⟨cnum, off, (encode (Command.Set k0 w)).length⟩)
      (fun q hq => hval q (List.mem_cons_of_mem _ hq)) hpw.2 hlt2
    rw [slicesOf, hw]
    simp only [Option.getD_some]
    rw [load_step_set, hrec, idxGet_none_of_all_lt hlt0]
    rw [idxInsert_append_of_lt hlt0]
    rw [reassign, hw]
    simp only [Option.getD_some, List.append_assoc, List.singleton_append,
      Option.map_none', Option.getD_none, Nat.zero_add]

theorem compact_inv {s : KVStore} (hinv : Inv s) :
    ∃ s', compactOp s = .ok () s' ∧ Inv s' ∧
      (∀ k, specGet s' k = specGet s k) ∧
      s'.index_map.map Prod.fst = s.index_map.map Prod.fst := by
  obtain ⟨pos1, hco, hget⟩ :=
    compactOp_spec s (inv_entriesOk hinv) (inv_keys_le hinv)
  have hpw' : (reassign s.readers (s.current_file_number + 1)
      s.index_map 0).Pairwise (fun a b => strLt a.1 b.1 = true) :=
    pairwise_fst_of_keys_eq (reassign_keys _ _ _ _) hinv.2.2.1
  have hval : ∀ p ∈ s.index_map, ∃ w,
      readData s.readers p.2 = some (encode (Command.Set p.1 w)) := by
    intro p hp
    obtain ⟨r, w, hr, hlen, hbound, hslice⟩ := hinv.2.2.2.1 p hp
    exact ⟨w, by rw [readData, hr, Option.map_some', hslice]⟩
  refine ⟨_, hco, ⟨?_, ?_, hpw', ?_, ?_⟩, hget, ?_⟩
  · simp
  · simp
  · -- every compacted entry is valid in the new state
    intro p hp
    have hnd' : ((reassign s.readers (s.current_file_number + 1)
        s.index_map 0).map Prod.fst).Nodup := nodup_keys_of_pairwise hpw'
    have hpg := idxGet_of_mem_nodup hp hnd'
    cases hk : idxGet s.index_map p.1 with
    | none =>
      have hres := (reassign_get s.readers (s.current_file_number + 1)
        s.index_map 0 p.1).1 hk
      rw [hpg] at hres
      simp at hres
    | some md =>
      obtain ⟨o, h1, _, h3, h4⟩ := (reassign_get s.readers
        (s.current_file_number + 1) s.index_map 0 p.1).2 md hk
      rw [hpg] at h1
      simp only [Option.some.injEq] at h1
      obtain ⟨w, hreadmd⟩ := hval (p.1, md) (mem_of_idxGet hk)
      rw [Nat.sub_zero] at h3 h4
      rw [hreadmd] at h1 h3 h4
      simp only [Option.getD_some] at h1 h3 h4
      rw [h1]
      refine ⟨⟨slicesOf s.readers s.index_map, pos1⟩, w, ?_, ?_, ?_, ?_⟩
      · rw [rget, if_pos rfl]
      · simp
      · simp
        omega
      · simp only []
        rw [h4]
  · -- replaying the compacted directory rebuilds the compacted index
    refine ⟨0 + (0 + 0), ?_⟩
    have hload1 : load (s.current_file_number + 1)
        (slicesOf s.readers s.index_map) 0 [] =
        .ok ([] ++ reassign s.readers (s.current_file_number + 1)
          s.index_map 0, 0) :=
      load_slices _ _ s.index_map 0 [] hval hinv.2.2.1 (by simp)
    rw [List.nil_append] at hload1
    have h1 : loadAll [s.current_file_number + 1]
        (diskOf ⟨s.current_file_number + 2,
          [(s.current_file_number + 1,
              ⟨slicesOf s.readers s.index_map, pos1⟩),
            (s.current_file_number + 2, ⟨[], 0⟩)],
          reassign s.readers (s.current_file_number + 1) s.index_map 0, 0⟩)
        [] = .ok (reassign s.readers (s.current_file_number + 1)
          s.index_map 0, 0 + 0) := by
      apply loadAll_singleton _ hload1
      simp [diskOf, dget]
    have h2 : loadAll [s.current_file_number + 2]
        (diskOf ⟨s.current_file_number + 2,
          [(s.current_file_number + 1,
              ⟨slicesOf s.readers s.index_map, pos1⟩),
            (s.current_file_number + 2, ⟨[], 0⟩)],
          reassign s.readers (s.current_file_number + 1) s.index_map 0, 0⟩)
        (reassign s.readers (s.current_file_number + 1) s.index_map 0) =
        .ok (reassign s.readers (s.current_file_number + 1)
          s.index_map 0, 0 + 0) := by
      apply loadAll_singleton _ (load_nil _ _ _)
      simp [diskOf, dget]
    have := loadAll_append_ok h1 h2
    simpa using this
  · exact reassign_keys _ _ _ _

theorem rget_map_data_len (rs : Readers) (n : Nat) :
    rget (rs.map (fun p => (p.1, Rdr.mk p.2.data p.2.data.length))) n =
      (rget rs n).map (fun r => Rdr.mk r.data r.data.length) := by
  induction rs with
  | nil => simp [rget]
  | cons p rest ih =>
    obtain ⟨n', r'⟩ := p
    rw [List.map_cons, rget, rget]
    by_cases h : n = n'
    · rw [if_pos h, if_pos h]
      rfl
    · rw [if_neg h, if_neg h]
      exact ih

theorem rget_of_mem_nodup {rs : Readers} {n : Nat} {r : Rdr}
    (hmem : (n, r) ∈ rs) (hnd : (rs.map Prod.fst).Nodup) :
    rget rs n = some r := by
  induction rs with
  | nil => simp at hmem
  | cons p rest ih =>
    obtain ⟨n', r'⟩ := p
    simp only [List.map_cons, List.nodup_cons] at hnd
    rw [rget]
    rcases List.mem_cons.mp hmem with heq | hmem'
    · obtain ⟨rfl, rfl⟩ := Prod.mk.injEq .. |>.mp heq
      rw [if_pos rfl]
    · by_cases hn : n = n'
      · exfalso
        apply hnd.1
        rw [← hn]
        exact List.mem_map_of_mem Prod.fst hmem'
      · rw [if_neg hn]
        exact ih hmem' hnd.2

/-- The readers map `open` builds by iterating the sorted listing: each
listed segment gets a reader whose cursor sits at end of file (the replay
read it to the end). -/
theorem open_readers_eq (D : Disk) :
    ∀ (rs : Readers),
    (∀ p ∈ rs, dget D p.1 = some p.2.data) →
    (rs.map Prod.fst).filterMap
      (fun n => (dget D n).map (fun d => (n, Rdr.mk d d.length))) =
      rs.map (fun p => (p.1, Rdr.mk p.2.data p.2.data.length)) := by
  intro rs
  induction rs with
  | nil => intro _; rfl
  | cons q rest ih =>
    intro h
    obtain ⟨n0, r0⟩ := q
    simp only [List.map_cons, List.filterMap_cons]
    rw [h (n0, r0) (List.mem_cons_self _ _)]
    simp only [Option.map_some']
    rw [ih (fun p hp => h p (List.mem_cons_of_mem _ hp))]

/-- Reopening the directory of an invariant state succeeds, restores the
invariant, and preserves the outcome of `get` for every key. -/
theorem openOp_inv {s : KVStore} (hinv : Inv s) :
    ∃ s', openOp (diskOf s) = .ok s' ∧ Inv s' ∧
      ∀ k2, specGet s' k2 = specGet s k2 := by
  obtain ⟨u, hload⟩ := hinv.2.2.2.2
  have hdiskfst : (diskOf s).map Prod.fst = s.readers.map Prod.fst := by
    simp [diskOf]
  have hsorted : List.Sorted (· ≤ ·) (s.readers.map Prod.fst) :=
    hinv.1.imp (fun h => Nat.le_of_lt h)
  have hsort : List.insertionSort (· ≤ ·) ((diskOf s).map Prod.fst) =
      s.readers.map Prod.fst := by
    rw [hdiskfst]
    exact hsorted.insertionSort_eq
  have hnd : (s.readers.map Prod.fst).Nodup :=
    hinv.1.imp (fun h => Nat.ne_of_lt h)
  have hR : (s.readers.map Prod.fst).filterMap
      (fun n => (dget (diskOf s) n).map (fun d => (n, Rdr.mk d d.length))) =
      s.readers.map (fun p => (p.1, Rdr.mk p.2.data p.2.data.length)) := by
    apply open_readers_eq
    intro p hp
    simp only [diskOf]
    rw [dget_map_readers, rget_of_mem_nodup ?_ hnd]
    · rfl
    · exact hp
  have hlastD : (s.readers.map Prod.fst).getLast?.getD 0 =
      s.current_file_number := by
    rw [hinv.2.1]
    rfl
  have hnotmem : s.current_file_number + 1 ∉ s.readers.map Prod.fst := by
    intro hm
    have := inv_keys_le hinv _ hm
    omega
  have hRnone : rget (s.readers.map
      (fun p => (p.1, Rdr.mk p.2.data p.2.data.length)))
      (s.current_file_number + 1) = none := by
    rw [rget_map_data_len, rget_eq_none_of_not_mem hnotmem]
    rfl
  have hnf : newFileReaders (s.readers.map
      (fun p => (p.1, Rdr.mk p.2.data p.2.data.length)))
      (s.current_file_number + 1) =
      s.readers.map (fun p => (p.1, Rdr.mk p.2.data p.2.data.length)) ++
        [(s.current_file_number + 1, ⟨[], 0⟩)] := by
    rw [newFileReaders, hRnone]
  have hopen : openOp (diskOf s) = .ok
      ⟨s.current_file_number + 1,
        s.readers.map (fun p => (p.1, Rdr.mk p.2.data p.2.data.length)) ++
          [(s.current_file_number + 1, ⟨[], 0⟩)],
        s.index_map, u⟩ := by
    simp only [openOp, hsort, hload, hR, hlastD, hnf]
  have hkeys3 : (s.readers.map
      (fun p => (p.1, Rdr.mk p.2.data p.2.data.length)) ++
        [(s.current_file_number + 1, (⟨[], 0⟩ : Rdr))]).map Prod.fst =
      s.readers.map Prod.fst ++ [s.current_file_number + 1] := by
    simp [List.map_append, List.map_map]
  have hgetR : ∀ {fn : Nat} {r : Rdr}, rget s.readers fn = some r →
      rget (s.readers.map
        (fun p => (p.1, Rdr.mk p.2.data p.2.data.length)) ++
          [(s.current_file_number + 1, (⟨[], 0⟩ : Rdr))]) fn =
        some ⟨r.data, r.data.length⟩ := by
    intro fn r hr
    have hg : rget (s.readers.map
        (fun p => (p.1, Rdr.mk p.2.data p.2.data.length))) fn =
        some ⟨r.data, r.data.length⟩ := by
      rw [rget_map_data_len, hr]
      rfl
    rw [rget_append_left _ _ _ (by simp [hg]), hg]
  refine ⟨_, hopen, ⟨?_, ?_, hinv.2.2.1, ?_, ?_⟩, ?_⟩
  · rw [hkeys3, List.pairwise_append]
    refine ⟨hinv.1, by simp, ?_⟩
    intro a ha b hb
    simp only [List.mem_singleton] at hb
    subst hb
    have := inv_keys_le hinv a ha
    omega
  · rw [hkeys3]
    exact List.getLast?_concat _
  · intro p hp
    obtain ⟨r, w, hr, hlen, hbound, hslice⟩ := hinv.2.2.2.1 p hp
    exact ⟨⟨r.data, r.data.length⟩, w, hgetR hr, hlen, hbound, hslice⟩
  · have hdisk' : diskOf ⟨s.current_file_number + 1,
        s.readers.map (fun p => (p.1, Rdr.mk p.2.data p.2.data.length)) ++
          [(s.current_file_number + 1, ⟨[], 0⟩)],
        s.index_map, u⟩ =
        diskOf s ++ [(s.current_file_number + 1, [])] := by
      simp [diskOf, List.map_map]
    rw [hkeys3, hdisk']
    have hdg : ∀ n ∈ s.readers.map Prod.fst,
        dget (diskOf s ++ [(s.current_file_number + 1, [])]) n =
          dget (diskOf s) n := by
      intro n hn
      exact dget_append_left _ _ _
        ((dget_isSome_iff_mem _ _).mpr (by rw [hdiskfst]; exact hn))
    have hA : loadAll (s.readers.map Prod.fst)
        (diskOf s ++ [(s.current_file_number + 1, [])]) [] =
        .ok (s.index_map, u) := by
      rw [loadAll_congr_disk _ _ hdg]
      exact hload
    have hd0 : dget (diskOf s) (s.current_file_number + 1) = none := by
      simp only [diskOf]
      rw [dget_map_readers, rget_eq_none_of_not_mem hnotmem]
      rfl
    have hd1 : dget (diskOf s ++ [(s.current_file_number + 1, [])])
        (s.current_file_number + 1) = some [] := by
      rw [dget_append_right _ _ _ hd0, dget, if_pos rfl]
    have hB := loadAll_singleton hd1
      (load_nil (s.current_file_number + 1) 0 s.index_map)
    exact ⟨u + (0 + 0), loadAll_append_ok hA hB⟩
  · intro k2
    refine specGet_congr_idx k2 ?_ ?_
    · rfl
    · intro md hmd
      obtain ⟨r, w, hr, -, -, -⟩ := hinv.2.2.2.1 (k2, md) (mem_of_idxGet hmd)
      apply readData_congr_pt
      rw [hgetR hr, hr]
      rfl

/-- `set` on an invariant state succeeds, preserves the invariant, and
leaves the just-written value visible to `get` on that key (also when the
write pushes the counter over the threshold and compaction runs inline). -/
theorem setOp_inv {s : KVStore} (hinv : Inv s) (k v : String) :
    ∃ s', setOp s k v = .ok () s' ∧ Inv s' ∧
      specGet s' k = some (.ok (some v)) := by
  obtain ⟨init, rl, hsplit, hmapeq, hinitnone, hcur⟩ := inv_split_last hinv
  have hwp : writerPos s = rl.data.length := by
    rw [writerPos, hcur]
    rfl
  have happ : appendActive s.readers s.current_file_number
      (encode (Command.Set k v)) =
      rset s.readers s.current_file_number
        ⟨rl.data ++ encode (Command.Set k v), rl.pos⟩ := by
    rw [appendActive, hcur]
  have hinv1 : Inv ⟨s.current_file_number,
      appendActive s.readers s.current_file_number
        (encode (Command.Set k v)),
      idxInsert s.index_map k
        ⟨s.current_file_number, writerPos s,
          (encode (Command.Set k v)).length⟩,
      s.uncompact +
        ((idxGet s.index_map k).map CommandMedaData.length).getD 0⟩ :=
    append_record_inv hinv (Command.Set k v) _
  have hspec1 : specGet ⟨s.current_file_number,
      appendActive s.readers s.current_file_number
        (encode (Command.Set k v)),
      idxInsert s.index_map k
        ⟨s.current_file_number, writerPos s,
          (encode (Command.Set k v)).length⟩,
      s.uncompact +
        ((idxGet s.index_map k).map CommandMedaData.length).getD 0⟩ k =
      some (.ok (some v)) := by
    rw [specGet]
    simp only [idxGet_insert_self, readData, happ]
    rw [rget_rset_self]
    simp only [Option.map_some', hwp, List.drop_left, List.take_length,
      decodeExact_enc]
  have hstep : setOp s k v =
      if s.uncompact +
          ((idxGet s.index_map k).map CommandMedaData.length).getD 0 >
            COMPACTION_THRESHOLD then
        compactOp ⟨s.current_file_number,
          appendActive s.readers s.current_file_number
            (encode (Command.Set k v)),
          idxInsert s.index_map k
            ⟨s.current_file_number, writerPos s,
              (encode (Command.Set k v)).length⟩,
          s.uncompact +
            ((idxGet s.index_map k).map CommandMedaData.length).getD 0⟩
      else .ok () ⟨s.current_file_number,
        appendActive s.readers s.current_file_number
          (encode (Command.Set k v)),
        idxInsert s.index_map k
          ⟨s.current_file_number, writerPos s,
            (encode (Command.Set k v)).length⟩,
        s.uncompact +
          ((idxGet s.index_map k).map CommandMedaData.length).getD 0⟩ := rfl
  rw [hstep]
  by_cases hthr : s.uncompact +
      ((idxGet s.index_map k).map CommandMedaData.length).getD 0 >
        COMPACTION_THRESHOLD
  · rw [if_pos hthr]
    obtain ⟨s2, hc, hinv2, hget2, -⟩ := compact_inv hinv1
    exact ⟨s2, hc, hinv2, by rw [hget2 k]; exact hspec1⟩
  · rw [if_neg hthr]
    exact ⟨_, rfl, hinv1, hspec1⟩

/-- `remove` on an invariant state either fails with KeyNotFound leaving
the state unchanged, or succeeds and preserves the invariant (also when
the append crosses the threshold and compaction runs inline). -/
theorem removeOp_inv {s : KVStore} (hinv : Inv s) (k : String) :
    removeOp s k = .err .KeyNotFound s ∨
      ∃ s', removeOp s k = .ok () s' ∧ Inv s' := by
  cases hk : idxGet s.index_map k with
  | none => exact Or.inl (removeOp_absent s k hk)
  | some md =>
    right
    have hinv2 : Inv ⟨s.current_file_number,
        appendActive s.readers s.current_file_number
          (encode (Command.Remove k)),
        idxRemove s.index_map k,
        (s.uncompact + ((some md).map CommandMedaData.length).getD 0) +
          (encode (Command.Remove k)).length⟩ :=
      append_record_inv hinv (Command.Remove k) _
    have hstep : removeOp s k =
        if (s.uncompact + ((some md).map CommandMedaData.length).getD 0) +
            (encode (Command.Remove k)).length > COMPACTION_THRESHOLD then
          compactOp ⟨s.current_file_number,
            appendActive s.readers s.current_file_number
              (encode (Command.Remove k)),
            idxRemove s.index_map k,
            (s.uncompact + ((some md).map CommandMedaData.length).getD 0) +
              (encode (Command.Remove k)).length⟩
        else .ok () ⟨s.current_file_number,
          appendActive s.readers s.current_file_number
            (encode (Command.Remove k)),
          idxRemove s.index_map k,
          (s.uncompact + ((some md).map CommandMedaData.length).getD 0) +
            (encode (Command.Remove k)).length⟩ := by
      rw [removeOp, hk]
      rfl
    rw [hstep]
    by_cases hthr : (s.uncompact +
        ((some md).map CommandMedaData.length).getD 0) +
          (encode (Command.Remove k)).length > COMPACTION_THRESHOLD
    · rw [if_pos hthr]
      obtain ⟨s2, hc, hinv2', -, -⟩ := compact_inv hinv2
      exact ⟨s2, hc, hinv2'⟩
    · rw [if_neg hthr]
      exact ⟨_, rfl, hinv2⟩

/-! ### The invariant holds in every reachable state -/

theorem reachable_inv {s : KVStore} (h : Reachable s) : Inv s := by
  induction h with
  | boot hopen =>
    rename_i s0
    have h2 : (Except.ok samp0 : Except Unit KVStore) = .ok s0 := hopen
    injection h2 with h3
    subst h3
    refine ⟨?_, rfl, ?_, ?_, 0 + 0, ?_⟩
    · simp [samp0]
    · simp [samp0]
    · intro p hp
      simp [samp0] at hp
    · show loadAll [1] [(1, [])] [] = .ok (([] : Index), 0 + 0)
      exact loadAll_singleton rfl (load_nil 1 0 [])
  | doSet k v _ ih =>
    obtain ⟨s', hset, hinv', -⟩ := setOp_inv ih k v
    rw [hset]
    exact hinv'
  | doGet k _ ih =>
    exact getOp_state_inv ih k
  | doRemove k _ ih =>
    rcases removeOp_inv ih k with h1 | ⟨s', h1, hinv'⟩
    · rw [h1]
      exact ih
    · rw [h1]
      exact hinv'
  | doCompact _ ih =>
    obtain ⟨s', hc, hinv', -, -⟩ := compact_inv ih
    rw [hc]
    exact hinv'
  | reopen _ hopen ih =>
    obtain ⟨s'', ho, hinv'', -⟩ := openOp_inv ih
    rw [hopen] at ho
    injection ho with he
    rw [he]
    exact hinv''

/-- On an invariant state, `get` never aborts for want of a reader: its
specification-side outcome is always defined. -/
theorem specGet_isSome {s : KVStore} (hinv : Inv s) (k : String) :
    (specGet s k).isSome := by
  cases hk : idxGet s.index_map k with
  | none => simp [specGet, hk]
  | some md =>
    have hsome := (inv_entriesOk hinv (k, md) (mem_of_idxGet hk)).1
    cases hr : rget s.readers md.file_number with
    | none =>
      rw [hr] at hsome
      simp at hsome
    | some r =>
      cases hdec : decodeExact ((r.data.drop md.offset).take md.length) with
      | ok c => cases c <;> simp [specGet, readData, hk, hr, hdec]
      | error e => simp [specGet, readData, hk, hr, hdec]

/-- The boot state is reachable. -/
theorem reachable_samp0 : Reachable samp0 := Reachable.boot rfl

/-- The one-record state `samp1` is reachable (boot, then `set "a" "1"`). -/
theorem reachable_samp1 : Reachable samp1 := by
  have h := Reachable.doSet "a" "1" reachable_samp0
  have he : (setOp samp0 "a" "1").state samp0 = samp1 := by decide
  rwa [he] at h

/-! ### Claims C1, C2, C3, C9 -/

/-- Claim C1: on every reachable state, `set k v` succeeds and an
immediately following `get k` returns exactly the just-written value —
also in the overwrite case, and also when the write pushes the stale
counter over the threshold and compaction runs inline before `set`
returns. -/
theorem claim1_set_then_get (s : KVStore) (k v : String)
    (h : Reachable s) :
    (setOp s k v).out = some (.ok ()) ∧
    (getOp ((setOp s k v).state s) k).out = some (.ok (some v)) := by
  obtain ⟨s', hset, -, hspec⟩ := setOp_inv (reachable_inv h) k v
  rw [hset]
  refine ⟨rfl, ?_⟩
  rw [getOp_out_eq]
  exact hspec

/-- Witness for claim C1 at the concrete boot state. -/
theorem claim1_witness :
    (setOp samp0 "a" "1").out = some (.ok ()) ∧
    (getOp ((setOp samp0 "a" "1").state samp0) "a").out =
      some (.ok (some "1")) :=
  claim1_set_then_get samp0 "a" "1" reachable_samp0

/-- Claim C2: on every reachable state, when `compact` completes
successfully, `get` returns the same outcome afterwards as it would have
immediately before, for every key — keys absent before stay absent. -/
theorem claim2_compact_preserves_get {s s' : KVStore} (h : Reachable s)
    (hc : compactOp s = .ok () s') (k : String) :
    (getOp s' k).out = (getOp s k).out := by
  obtain ⟨s'', hc2, -, hget, -⟩ := compact_inv (reachable_inv h)
  rw [hc] at hc2
  injection hc2 with h0 he
  rw [getOp_out_eq, getOp_out_eq, he]
  exact hget k

/-- Witness for claim C2: compacting the concrete one-record state. -/
theorem claim2_witness : (getOp sampC "a").out = (getOp samp1 "a").out :=
  claim2_compact_preserves_get reachable_samp1 (by decide) "a"

/-- Claim C3: every reachable state arises from a finite sequence of
engine calls on an initially empty directory; closing it and reopening
the same directory succeeds and yields an engine whose `get` returns the
same outcome as before the close, for every key (touched or not). -/
theorem claim3_recovery_fidelity (s : KVStore) (h : Reachable s) :
    ∃ s', openOp (diskOf s) = .ok s' ∧
      ∀ k, (getOp s' k).out = (getOp s k).out := by
  obtain ⟨s', ho, -, hg⟩ := openOp_inv (reachable_inv h)
  refine ⟨s', ho, fun k => ?_⟩
  rw [getOp_out_eq, getOp_out_eq]
  exact hg k

/-- Witness for claim C3 at the concrete one-record state. -/
theorem claim3_witness :
    ∃ s', openOp (diskOf samp1) = .ok s' ∧
      ∀ k, (getOp s' k).out = (getOp samp1 k).out :=
  claim3_recovery_fidelity samp1 reachable_samp1

/-- Claim C9: in every reachable state, every index entry names a segment
id present in the readers map, and consequently neither `get` nor
`compact` can reach the reader-lookup abort. -/
theorem claim9_readers_cover_index (s : KVStore) (h : Reachable s) :
    (∀ p ∈ s.index_map, p.2.file_number ∈ s.readers.map Prod.fst) ∧
    (∀ k, getOp s k ≠ .panic) ∧ compactOp s ≠ .panic := by
  have hinv := reachable_inv h
  refine ⟨?_, ?_, ?_⟩
  · intro p hp
    exact (rget_isSome_iff_mem _ _).mp (inv_entriesOk hinv p hp).1
  · intro k hpan
    have hout := getOp_out_eq s k
    rw [hpan] at hout
    have hs := specGet_isSome hinv k
    rw [← hout] at hs
    simp [StepRes.out] at hs
  · intro hpan
    obtain ⟨s', hc, -, -, -⟩ := compact_inv hinv
    rw [hpan] at hc
    exact StepRes.noConfusion hc

/-- Witness for claim C9 at the concrete one-record state. -/
theorem claim9_witness :
    ("a", (⟨1, 0, 7⟩ : CommandMedaData)).2.file_number ∈
      samp1.readers.map Prod.fst ∧
    getOp samp1 "a" ≠ .panic ∧ compactOp samp1 ≠ .panic :=
  ⟨(claim9_readers_cover_index samp1 reachable_samp1).1 _
      (by simp [samp1]),
    (claim9_readers_cover_index samp1 reachable_samp1).2.1 "a",
    (claim9_readers_cover_index samp1 reachable_samp1).2.2⟩

end KV
